import Mathlib

/-!
Shallow embedding of the run-span text rewriter of
`scripts/prepare-bonterms-templates.py` and of the license loader of
`scripts/aspose_style_employment_templates.py`, with theorems settling the
frozen claims about them.

A `w:r` run is modelled as an optional property bag (`rPr`) plus an optional
text child (`t`); a paragraph is the ordered list of its children, each a
run, a hyperlink wrapper holding runs, or an opaque other element.  Python
strings are `List Char`; `str.find` is `findSub`; Python list indexing
(negative indices included) is `pyGet`.
-/

/-- The `w:rPr` run-property bag: the placeholder markers the scripts touch
(`w:i`, `w:iCs`, `w:color`), the bold markers (`w:b`, `w:bCs`) touched by
`append_tag_after_label`, and the remaining children, opaque and untouched. -/
structure RunProps where
  i : Bool
  iCs : Bool
  color : Bool
  b : Bool
  bCs : Bool
  other : List String
deriving DecidableEq

/-- A `w:r` element: optional `w:rPr` and optional `w:t` child (whose text,
`None` coalesced to the empty string, is the char list). -/
structure Run where
  rPr : Option RunProps
  t : Option (List Char)
deriving DecidableEq

/-- A direct child of a `w:p` element. -/
inductive PChild where
  | run (r : Run)
  | hyperlink (runs : List Run)
  | other
deriving DecidableEq

/-- A `w:p` element: its ordered children. -/
abbrev Para := List PChild

/-- The text a run contributes: `t.text or ""`. -/
def runText (r : Run) : List Char := r.t.getD []

/-- Concatenated text of a run list (`full_text` in the script). -/
def fullText (runs : List Run) : List Char := (runs.map runText).flatten

/-- `full_text.find(old)` at char granularity: index of the first
occurrence, `none` when absent (Python returns `-1`). -/
def findSub : List Char → List Char → Option Nat
  | [], pat => if pat = [] then some 0 else none
  | c :: rest, pat =>
    if (c :: rest).take pat.length = pat then some 0
    else (findSub rest pat).map (fun n => n + 1)

/-- `pat` occurs in `s` at index `k`. -/
def occursAt (s pat : List Char) (k : Nat) : Prop :=
  (s.drop k).take pat.length = pat

instance (s pat : List Char) (k : Nat) : Decidable (occursAt s pat k) := by
  unfold occursAt; infer_instance

/-- Number of indices at which `pat` occurs in `s`. -/
def occCount (s pat : List Char) : Nat :=
  ((List.range (s.length + 1)).filter (fun k => decide (occursAt s pat k))).length

/-- `s.replace(old, new, 1)`: replace the first occurrence only. -/
def replaceFirst (s old new : List Char) : List Char :=
  match findSub s old with
  | none => s
  | some i => s.take i ++ new ++ s.drop (i + old.length)

/-- The `char_map` of the script, built with absolute run index `i`:
entry `k` is `(run index, offset in run)` of character `k` of `full_text`. -/
def charMapAux : List Run → Nat → List (Nat × Nat)
  | [], _ => []
  | r :: rs, i =>
    (List.range (runText r).length).map (fun j => (i, j)) ++ charMapAux rs (i + 1)

/-- `char_map` as the script builds it (`i` starting at 0). -/
def charMap (runs : List Run) : List (Nat × Nat) := charMapAux runs 0

/-- Python list indexing: a negative index counts from the end, an index out
of range on either side is an `IndexError` (`none`). -/
def pyGet (l : List (Nat × Nat)) (i : Int) : Option (Nat × Nat) :=
  if 0 ≤ i then l[i.toNat]?
  else if i.natAbs ≤ l.length then l[l.length - i.natAbs]?
  else none

/-- Functional view of the char map: which run and offset character `k`
falls in. -/
def locate : List Run → Nat → Option (Nat × Nat)
  | [], _ => none
  | r :: rs, k =>
    if k < (runText r).length then some (0, k)
    else (locate rs (k - (runText r).length)).map (fun x => (x.1 + 1, x.2))

/-- Length of the concatenated text of the first `i` runs. -/
def preLen (runs : List Run) (i : Nat) : Nat := (fullText (runs.take i)).length

/-- Set a run's `w:t` text (`t.text = s`). -/
def setText (r : Run) (s : List Char) : Run := { r with t := some s }

/-- Remove `w:i`, `w:iCs`, `w:color` from a property bag. -/
def stripProps (p : RunProps) : RunProps :=
  { p with i := false, iCs := false, color := false }

/-- Remove the placeholder markers from a run's `w:rPr`, when it has one. -/
def stripRun (r : Run) : Run := { r with rPr := r.rPr.map stripProps }

/-- Remove `w:b`, `w:bCs` from a property bag (`append_tag_after_label`). -/
def stripBold (p : RunProps) : RunProps := { p with b := false, bCs := false }

/-- Apply `f idx` to every element, `idx` counted from `n`. -/
def mapIdx (f : Nat → Run → Run) : List Run → Nat → List Run
  | [], _ => []
  | r :: rs, n => f n r :: mapIdx f rs (n + 1)

/-- Replace the run at index `i` in place, leaving the list unchanged when
out of range (the script only ever hits in-range indices). -/
def updateRun (runs : List Run) (i : Nat) (f : Run → Run) : List Run :=
  mapIdx (fun idx r => if idx = i then f r else r) runs 0

/-- Blank the text of the runs strictly between the start and end run
(`for mid_idx in range(start_run_idx + 1, end_run_idx)`). -/
def blankMiddles (runs : List Run) (s e : Nat) : List Run :=
  mapIdx (fun idx r => if s + 1 ≤ idx ∧ idx < e then setText r [] else r) runs 0

/-- Strip placeholder formatting from the runs the match touches
(`for idx in range(start_run_idx, end_run_idx + 1)`). -/
def stripRange (runs : List Run) (s e : Nat) : List Run :=
  mapIdx (fun idx r => if s ≤ idx ∧ idx ≤ e then stripRun r else r) runs 0

/-- One `old → new` pass of `replace_bracketed_in_para` over the collected
run list: find, resolve through `char_map`, rewrite in the same-run or the
cross-run shape, strip formatting.  Returns `none` on an `IndexError` of
the two `char_map` lookups, otherwise the updated runs and whether a
replacement happened. -/
def replaceStep (runs : List Run) (old new : List Char) :
    Option (List Run × Bool) :=
  match findSub (fullText runs) old with
  | none => some (runs, false)
  | some pos =>
    match pyGet (charMap runs) (pos : Int),
        pyGet (charMap runs) ((pos : Int) + old.length - 1) with
    | some (si, sc), some (ei, ec) =>
      let runs' :=
        if si = ei then
          updateRun runs si (fun r => setText r (replaceFirst (runText r) old new))
        else
          let r1 := updateRun runs si
            (fun r => setText r ((runText r).take sc ++ new))
          let r2 := blankMiddles r1 si ei
          updateRun r2 ei (fun r => setText r ((runText r).drop (ec + 1)))
      some (stripRange runs' si ei, true)
    | _, _ => none

/-- The run collection of `replace_bracketed_in_para`: direct-child runs
and runs inside a hyperlink wrapper, in order, keeping exactly those with a
`w:t` child (empty text included). -/
def collectRuns : Para → List Run
  | [] => []
  | PChild.run r :: rest =>
    (if r.t.isSome then [r] else []) ++ collectRuns rest
  | PChild.hyperlink rs :: rest =>
    rs.filter (fun r => r.t.isSome) ++ collectRuns rest
  | PChild.other :: rest => collectRuns rest

/-- Write a mutated flat run list back into a run list, consuming one new
run per collected slot; returns the rest of the new list too. -/
def setRunsList : List Run → List Run → List Run × List Run
  | [], new => ([], new)
  | r :: rs, new =>
    if r.t.isSome then
      match new with
      | [] => let (rs', n') := setRunsList rs []; (r :: rs', n')
      | r' :: new' => let (rs', n') := setRunsList rs new'; (r' :: rs', n')
    else
      let (rs', n') := setRunsList rs new
      (r :: rs', n')

/-- Write a mutated flat run list back into a paragraph, consuming one new
run per collected slot (the script mutates the collected `w:t` elements in
place; the collected slots are exactly the tree positions `collectRuns`
enumerates, in the same order). -/
def setCollectedAux : Para → List Run → Para × List Run
  | [], new => ([], new)
  | PChild.run r :: rest, new =>
    if r.t.isSome then
      match new with
      | [] =>
        let (p', n') := setCollectedAux rest []
        (PChild.run r :: p', n')
      | r' :: new' =>
        let (p', n') := setCollectedAux rest new'
        (PChild.run r' :: p', n')
    else
      let (p', n') := setCollectedAux rest new
      (PChild.run r :: p', n')
  | PChild.hyperlink rs :: rest, new =>
    let (rs', n1) := setRunsList rs new
    let (p', n2) := setCollectedAux rest n1
    (PChild.hyperlink rs' :: p', n2)
  | PChild.other :: rest, new =>
    let (p', n') := setCollectedAux rest new
    (PChild.other :: p', n')

def setCollected (p : Para) (new : List Run) : Para := (setCollectedAux p new).1

/-- One `old → new` iteration of `replace_bracketed_in_para` at paragraph
level, with the `if not runs: return` guard and the found flag. -/
def replaceBracketedOne (p : Para) (old new : List Char) :
    Option (Para × Bool) :=
  if collectRuns p = [] then some (p, false)
  else
    match replaceStep (collectRuns p) old new with
    | none => none
    | some (runs', found) => some (setCollected p runs', found)

/-- `replace_bracketed_in_para(para, replacements)`: iterate the pairs in
order, re-collecting runs and rebuilding the char map each time; an empty
run list returns from the whole function. -/
def replaceBracketedInPara : Para → List (List Char × List Char) → Option Para
  | p, [] => some p
  | p, (old, new) :: rest =>
    if collectRuns p = [] then some p
    else
      match replaceBracketedOne p old new with
      | none => none
      | some (p', _) => replaceBracketedInPara p' rest

/-- The rewriting function the cross-run branch applies at index `idx`. -/
def crossFun (si sc ei ec : Nat) (new : List Char) (idx : Nat) (r : Run) : Run :=
  if idx = si then stripRun (setText r ((runText r).take sc ++ new))
  else if si + 1 ≤ idx ∧ idx < ei then stripRun (setText r [])
  else if idx = ei then stripRun (setText r ((runText r).drop (ec + 1)))
  else r

/-- The rewriting function the same-run branch applies at index `idx`. -/
def sameFun (si : Nat) (old new : List Char) (idx : Nat) (r : Run) : Run :=
  if idx = si then stripRun (setText r (replaceFirst (runText r) old new)) else r

/-- The structural shape of a paragraph child, for frame conditions. -/
inductive Shape where
  | runS
  | linkS (n : Nat)
  | otherS
deriving DecidableEq

/-- The shape of a paragraph: kind of every child in order (hyperlinks with
their run count). -/
def paraShape (p : Para) : List Shape :=
  p.map (fun c =>
    match c with
    | PChild.run _ => Shape.runS
    | PChild.hyperlink rs => Shape.linkS rs.length
    | PChild.other => Shape.otherS)

/-- Direct-child runs with a `w:t` child, paired with their child index
(`append_tag_after_label` collects these; runs inside hyperlinks are not
visited). -/
def directRunsIdxAux : Para → Nat → List (Nat × Run)
  | [], _ => []
  | PChild.run r :: rest, i =>
    if r.t.isSome then (i, r) :: directRunsIdxAux rest (i + 1)
    else directRunsIdxAux rest (i + 1)
  | PChild.hyperlink _ :: rest, i => directRunsIdxAux rest (i + 1)
  | PChild.other :: rest, i => directRunsIdxAux rest (i + 1)

def directRunsIdx (p : Para) : List (Nat × Run) := directRunsIdxAux p 0

/-- The loop finding the last run of the label match: accumulate character
counts and stop at the first run whose cumulative count reaches
`label_end`. -/
def lastLabelRun : List (Nat × Run) → Nat → Nat → Option (Nat × Run)
  | [], _, _ => none
  | (ci, r) :: rest, cc, e =>
    if e ≤ cc + (runText r).length then some (ci, r)
    else lastLabelRun rest (cc + (runText r).length) e

/-- `append_tag_after_label(para, label, template_tag)`: find the label in
the concatenation of the direct-child run texts, build a new run carrying
the last label run's properties minus bold with text a space plus the tag,
and insert it right after the last label run. -/
def appendTagAfterLabel (p : Para) (label tg : List Char) : Para :=
  let direct := directRunsIdx p
  match direct.getLast? with
  | none => p
  | some lastPair =>
    let ft := fullText (direct.map (fun x => x.2))
    match findSub ft label with
    | none => p
    | some s =>
      let labelEnd := s + label.length
      let chosen := (lastLabelRun direct 0 labelEnd).getD lastPair
      let newRun : Run :=
        { rPr := chosen.2.rPr.map stripBold, t := some (' ' :: tg) }
      p.take (chosen.1 + 1) ++ PChild.run newRun :: p.drop (chosen.1 + 1)

/-- All `w:r` elements under a paragraph in document order, hyperlink-nested
included, with no requirement of a `w:t` child (`para.iter(w:r)`). -/
def allRuns : Para → List Run
  | [] => []
  | PChild.run r :: rest => r :: allRuns rest
  | PChild.hyperlink rs :: rest => rs ++ allRuns rest
  | PChild.other :: rest => allRuns rest

/-- `get_paragraph_text`: concatenated text of every run under the
paragraph. -/
def paragraphText (p : Para) : List Char := fullText (allRuns p)

/-- Position of a run inside a paragraph: a direct child, or nested in the
hyperlink at a child index. -/
inductive RunAddr where
  | direct (childIdx : Nat)
  | inLink (childIdx : Nat) (sub : Nat)
deriving DecidableEq

/-- Address of the first run in document order (`runs[0]`). -/
def firstRunAddrAux : Para → Nat → Option RunAddr
  | [], _ => none
  | PChild.run _ :: _, i => some (RunAddr.direct i)
  | PChild.hyperlink rs :: rest, i =>
    if rs.isEmpty then firstRunAddrAux rest (i + 1) else some (RunAddr.inLink i 0)
  | PChild.other :: rest, i => firstRunAddrAux rest (i + 1)

/-- `replace_cell_text`'s rewrite of the first run: set its `w:t` text to
`new_text` (creating the `w:t` when missing) and strip italic/color. -/
def updateFirstRun (r : Run) (newText : List Char) : Run :=
  { rPr := r.rPr.map stripProps, t := some newText }

/-- The removal loop of `replace_cell_text` when the first run is the direct
child at index `k`: keep non-run non-hyperlink children, keep only the
(updated) first run, drop every hyperlink. -/
def removeOthers : Para → Nat → Nat → List Char → Para
  | [], _, _, _ => []
  | PChild.run r :: rest, i, k, nt =>
    if i = k then PChild.run (updateFirstRun r nt) :: removeOthers rest (i + 1) k nt
    else removeOthers rest (i + 1) k nt
  | PChild.hyperlink _ :: rest, i, k, nt => removeOthers rest (i + 1) k nt
  | PChild.other :: rest, i, k, nt => PChild.other :: removeOthers rest (i + 1) k nt

/-- The removal loop when the first run sits inside a hyperlink: the updated
run is discarded together with its hyperlink, only opaque children stay. -/
def keepOthers (p : Para) : Para :=
  p.filterMap (fun c =>
    match c with
    | PChild.other => some PChild.other
    | _ => none)

/-- The paragraph rewrite of `replace_cell_text` once the paragraph
qualifies: set the first run's text and strip its placeholder formatting,
then remove every other direct run and every hyperlink child. -/
def rewritePara (p : Para) (newText : List Char) : Para :=
  match firstRunAddrAux p 0 with
  | none => p
  | some (RunAddr.direct k) => removeOthers p 0 k newText
  | some (RunAddr.inLink _ _) => keepOthers p

/-- `replace_cell_text(cell, old_text, new_text)`: walk the cell's
paragraphs, skip those with no runs or without `old_text`, rewrite the
first qualifying paragraph and return. -/
def replaceCellText : List Para → List Char → List Char → List Para
  | [], _, _ => []
  | p :: rest, old, new =>
    if allRuns p = [] then p :: replaceCellText rest old new
    else if findSub (paragraphText p) old = none then p :: replaceCellText rest old new
    else rewritePara p new :: rest

/-- Spec-side flattening for C7: direct and hyperlink-nested runs in order,
runs with empty text skipped (what the spec sentence describes). -/
def specFlattenNonEmpty (p : Para) : List Run :=
  (allRuns p).filter (fun r => !(runText r).isEmpty)

/-- Direct-child runs only, with a `w:t` child (what
`append_tag_after_label` actually collects). -/
def directChildRuns (p : Para) : List Run := (directRunsIdx p).map (fun x => x.2)

/-- The environment `try_apply_license` reads: the two environment
variables and which paths exist on the filesystem. -/
structure Env where
  junior_license : Option String
  aspose_license : Option String
  path_ok : String → Bool

/-- Outcome of running `try_apply_license` in a given environment. -/
inductive PyOutcome where
  | applied (path : String)
  | warned
  | nameError (missing : String)
deriving DecidableEq

/-- The top-level names `aspose_style_employment_templates.py` imports
(lines 1-8 of the file): `annotations` (future), `os`, `re`, `Path`, `aw`.
`sys` is not among them. -/
def moduleImports : List String := ["annotations", "os", "re", "Path", "aw"]

/-- The hard-coded fallback license path. -/
def juniorLicensePath : String :=
  "/Users/stevenobiajulu/Projects/junior-AI-email-bot/licenses/Aspose.Words.Python.NET.lic"

/-- The candidate list of `try_apply_license`, in order. -/
def candidates (env : Env) : List (Option String) :=
  [env.junior_license, env.aspose_license, some juniorLicensePath]

/-- The candidate loop: skip falsy and missing candidates, apply the first
existing license and return; when the loop falls through, evaluate
`print(..., file=sys.stderr)`, which resolves the name `sys` in the module
namespace — a `NameError` when `sys` was never imported. -/
def tryApplyLicenseLoop (env : Env) : List (Option String) → PyOutcome
  | [] =>
    if moduleImports.contains "sys" then PyOutcome.warned
    else PyOutcome.nameError "sys"
  | c :: rest =>
    match c with
    | none => tryApplyLicenseLoop env rest
    | some s =>
      if s = "" then tryApplyLicenseLoop env rest
      else if env.path_ok s then PyOutcome.applied s
      else tryApplyLicenseLoop env rest

/-- `try_apply_license()` of `aspose_style_employment_templates.py`. -/
def tryApplyLicense (env : Env) : PyOutcome :=
  tryApplyLicenseLoop env (candidates env)

/-- Witness for C6: an italic coloured run `"[Fill in]"` replaced by
`"{effective_date}"` comes out with the new text and no italic or color
marker. -/
def italFillProps : RunProps :=
  { i := true, iCs := true, color := true, b := false, bCs := false,
    other := ["rFonts"] }

def italFillPara : Para :=
  [PChild.run { rPr := some italFillProps, t := some "[Fill in]".toList }]

def partyColonProps : RunProps :=
  { i := false, iCs := false, color := false, b := true, bCs := true, other := [] }

def partyNamePara : Para :=
  [PChild.run { rPr := none, t := some "Party Name".toList },
   PChild.run { rPr := some partyColonProps, t := some ":".toList }]

/-- The opaque (non-run, non-hyperlink) children of a paragraph, in order. -/
def othersOf (p : Para) : Para :=
  p.filter (fun c => decide (c = PChild.other))

def fillRun : Run := { rPr := none, t := some "[Fill in]".toList }

def singleRunPara : Para := [PChild.run fillRun]

def nopePara : Para := [PChild.run { rPr := none, t := some "nope".toList }]

def preRun : Run := { rPr := none, t := some "pre".toList }

def demoPara : Para :=
  [PChild.other, PChild.run preRun, PChild.run fillRun,
   PChild.hyperlink [{ rPr := none, t := some "link".toList }]]

theorem findSub_some (s pat : List Char) (k : Nat) (h : findSub s pat = some k) :
    occursAt s pat k ∧ k ≤ s.length ∧ ∀ m, m < k → ¬ occursAt s pat m := by
  induction s generalizing k with
  | nil =>
    unfold findSub at h
    by_cases hp : pat = ([] : List Char)
    · simp [hp] at h
      subst h
      refine ⟨by simp [occursAt, hp], by simp, fun m hm => absurd hm (by omega)⟩
    · simp [hp] at h
  | cons c rest ih =>
    unfold findSub at h
    by_cases hp : (c :: rest).take pat.length = pat
    · simp [hp] at h
      subst h
      refine ⟨by simpa [occursAt] using hp, by simp, fun m hm => absurd hm (by omega)⟩
    · simp [hp] at h
      obtain ⟨k₀, hk₀, rfl⟩ := h
      obtain ⟨h1, h2, h3⟩ := ih k₀ hk₀
      refine ⟨by simpa [occursAt] using h1, by simp; omega, ?_⟩
      intro m hm
      match m with
      | 0 => simpa [occursAt] using hp
      | m + 1 =>
        have := h3 m (by omega)
        simpa [occursAt] using this

theorem findSub_none (s pat : List Char) (h : findSub s pat = none) :
    ∀ k, ¬ occursAt s pat k := by
  induction s with
  | nil =>
    unfold findSub at h
    by_cases hp : pat = ([] : List Char)
    · simp [hp] at h
    · intro k hk
      unfold occursAt at hk
      simp at hk
      exact hp hk
  | cons c rest ih =>
    unfold findSub at h
    by_cases hp : (c :: rest).take pat.length = pat
    · simp [hp] at h
    · simp [hp] at h
      intro k
      match k with
      | 0 => simpa [occursAt] using hp
      | k + 1 =>
        have := ih h k
        simpa [occursAt] using this

theorem occursAt_findSub (s pat : List Char) (k : Nat) (h : occursAt s pat k) :
    ∃ m, m ≤ k ∧ findSub s pat = some m := by
  cases hf : findSub s pat with
  | none => exact absurd h (findSub_none s pat hf k)
  | some m =>
    refine ⟨m, ?_, rfl⟩
    by_contra hlt
    exact (findSub_some s pat m hf).2.2 k (by omega) h

theorem occursAt_length {s pat : List Char} {k : Nat} (h : occursAt s pat k)
    (hp : pat ≠ []) : k + pat.length ≤ s.length := by
  unfold occursAt at h
  have hlen : pat.length = min pat.length (s.length - k) := by
    conv_lhs => rw [← h]
    simp
  have hks : k ≤ s.length := by
    by_contra hk
    have : s.length - k = 0 := by omega
    rw [this] at hlen
    simp at hlen
    exact hp hlen
  omega

theorem occCount_pos_findSub (s pat : List Char) (h : 0 < occCount s pat) :
    ∃ m, findSub s pat = some m := by
  cases hf : findSub s pat with
  | none =>
    exfalso
    unfold occCount at h
    rw [List.length_pos] at h
    obtain ⟨k, hk⟩ := List.exists_mem_of_ne_nil _ h
    have := List.mem_filter.mp hk
    exact findSub_none s pat hf k (by simpa using this.2)
  | some m => exact ⟨m, rfl⟩

theorem fullText_nil : fullText [] = [] := rfl

theorem fullText_cons (r : Run) (rs : List Run) :
    fullText (r :: rs) = runText r ++ fullText rs := by
  simp [fullText]

theorem fullText_append (a b : List Run) :
    fullText (a ++ b) = fullText a ++ fullText b := by
  simp [fullText]

theorem charMapAux_getElem (runs : List Run) (n k : Nat) :
    (charMapAux runs n)[k]? = (locate runs k).map (fun x => (x.1 + n, x.2)) := by
  induction runs generalizing n k with
  | nil => simp [charMapAux, locate]
  | cons r rs ih =>
    rw [charMapAux, locate, List.getElem?_append]
    by_cases hk : k < (runText r).length
    · simp [hk]
    · simp only [List.length_map, List.length_range, hk, if_false, if_neg hk]
      rw [ih]
      cases locate rs (k - (runText r).length) with
      | none => simp
      | some x =>
        simp only [Option.map_some']
        have hx : x.1 + (n + 1) = x.1 + 1 + n := by omega
        rw [hx]

theorem charMap_getElem (runs : List Run) (k : Nat) :
    (charMap runs)[k]? = locate runs k := by
  rw [charMap, charMapAux_getElem]
  cases locate runs k with
  | none => rfl
  | some x => simp

theorem charMap_length (runs : List Run) :
    (charMap runs).length = (fullText runs).length := by
  suffices h : ∀ n, (charMapAux runs n).length = (fullText runs).length from h 0
  induction runs with
  | nil => intro n; simp [charMapAux, fullText_nil]
  | cons r rs ih => intro n; simp [charMapAux, fullText_cons, ih]

theorem locate_isSome (runs : List Run) (k : Nat)
    (h : k < (fullText runs).length) : (locate runs k).isSome := by
  induction runs generalizing k with
  | nil => simp [fullText_nil] at h
  | cons r rs ih =>
    rw [locate]
    by_cases hk : k < (runText r).length
    · simp [hk]
    · have hlt : k - (runText r).length < (fullText rs).length := by
        rw [fullText_cons] at h
        simp at h
        omega
      rcases Option.isSome_iff_exists.mp (ih _ hlt) with ⟨x, hx⟩
      simp [hk, hx]

theorem locate_spec (runs : List Run) (k i j : Nat)
    (h : locate runs k = some (i, j)) :
    ∃ r, runs[i]? = some r ∧ j < (runText r).length ∧ k = preLen runs i + j := by
  induction runs generalizing k i with
  | nil => simp [locate] at h
  | cons r rs ih =>
    rw [locate] at h
    by_cases hk : k < (runText r).length
    · rw [if_pos hk] at h
      obtain ⟨rfl, rfl⟩ := Prod.ext_iff.mp (Option.some_inj.mp h)
      exact ⟨r, by simp, hk, by simp [preLen, fullText_nil]⟩
    · rw [if_neg hk] at h
      obtain ⟨⟨a, b⟩, hab, hfab⟩ := Option.map_eq_some'.mp h
      obtain ⟨ha, hb⟩ := Prod.ext_iff.mp hfab
      simp only at ha hb
      subst ha
      subst hb
      obtain ⟨r', hr', hj, hkk⟩ := ih _ _ hab
      refine ⟨r', by simpa using hr', hj, ?_⟩
      have hpre : preLen (r :: rs) (a + 1) = (runText r).length + preLen rs a := by
        simp [preLen, List.take_succ_cons, fullText_cons]
      omega

theorem locate_mono (runs : List Run) (k k' i j i' j' : Nat)
    (h : locate runs k = some (i, j)) (h' : locate runs k' = some (i', j'))
    (hkk : k ≤ k') : i ≤ i' := by
  induction runs generalizing k k' i j i' j' with
  | nil => simp [locate] at h
  | cons r rs ih =>
    rw [locate] at h h'
    by_cases hk : k < (runText r).length
    · rw [if_pos hk] at h
      obtain ⟨hi, -⟩ := Prod.ext_iff.mp (Option.some_inj.mp h)
      omega
    · have hk' : ¬ k' < (runText r).length := by omega
      rw [if_neg hk] at h
      rw [if_neg hk'] at h'
      obtain ⟨⟨a, b⟩, hab, hfab⟩ := Option.map_eq_some'.mp h
      obtain ⟨⟨a', b'⟩, hab', hfab'⟩ := Option.map_eq_some'.mp h'
      obtain ⟨ha, -⟩ := Prod.ext_iff.mp hfab
      obtain ⟨ha', -⟩ := Prod.ext_iff.mp hfab'
      simp only at ha ha'
      have := ih _ _ _ _ _ _ hab hab' (by omega)
      omega

theorem runText_setText (r : Run) (s : List Char) : runText (setText r s) = s := rfl

theorem runText_stripRun (r : Run) : runText (stripRun r) = runText r := rfl

theorem mapIdx_length (f : Nat → Run → Run) (l : List Run) (n : Nat) :
    (mapIdx f l n).length = l.length := by
  induction l generalizing n with
  | nil => rfl
  | cons r rs ih => simp [mapIdx, ih]

theorem mapIdx_getElem (f : Nat → Run → Run) (l : List Run) (n m : Nat) :
    (mapIdx f l n)[m]? = (l[m]?).map (f (n + m)) := by
  induction l generalizing n m with
  | nil => simp [mapIdx]
  | cons r rs ih =>
    match m with
    | 0 => simp [mapIdx]
    | m + 1 =>
      rw [mapIdx]
      simp only [List.getElem?_cons_succ]
      rw [ih]
      have : n + 1 + m = n + (m + 1) := by omega
      rw [this]

theorem updateRun_getElem (runs : List Run) (i : Nat) (f : Run → Run) (m : Nat) :
    (updateRun runs i f)[m]? = (runs[m]?).map (fun r => if m = i then f r else r) := by
  rw [updateRun, mapIdx_getElem]
  simp

theorem updateRun_length (runs : List Run) (i : Nat) (f : Run → Run) :
    (updateRun runs i f).length = runs.length := by
  rw [updateRun, mapIdx_length]

theorem blankMiddles_getElem (runs : List Run) (s e m : Nat) :
    (blankMiddles runs s e)[m]? =
      (runs[m]?).map (fun r => if s + 1 ≤ m ∧ m < e then setText r [] else r) := by
  rw [blankMiddles, mapIdx_getElem]
  simp

theorem blankMiddles_length (runs : List Run) (s e : Nat) :
    (blankMiddles runs s e).length = runs.length := by
  rw [blankMiddles, mapIdx_length]

theorem stripRange_getElem (runs : List Run) (s e m : Nat) :
    (stripRange runs s e)[m]? =
      (runs[m]?).map (fun r => if s ≤ m ∧ m ≤ e then stripRun r else r) := by
  rw [stripRange, mapIdx_getElem]
  simp

theorem stripRange_length (runs : List Run) (s e : Nat) :
    (stripRange runs s e).length = runs.length := by
  rw [stripRange, mapIdx_length]

theorem mapIdx_append (f : Nat → Run → Run) (a b : List Run) (n : Nat) :
    mapIdx f (a ++ b) n = mapIdx f a n ++ mapIdx f b (n + a.length) := by
  induction a generalizing n with
  | nil => simp [mapIdx]
  | cons r rs ih =>
    rw [List.cons_append, mapIdx, mapIdx, ih]
    simp only [List.length_cons]
    have : n + 1 + rs.length = n + (rs.length + 1) := by omega
    rw [this, List.cons_append]

theorem mapIdx_mapIdx (f g : Nat → Run → Run) (l : List Run) (n : Nat) :
    mapIdx f (mapIdx g l n) n = mapIdx (fun i r => f i (g i r)) l n := by
  induction l generalizing n with
  | nil => rfl
  | cons r rs ih => simp [mapIdx, ih]

theorem mapIdx_id_of (f : Nat → Run → Run) (l : List Run) (n : Nat)
    (h : ∀ idx r, n ≤ idx → idx < n + l.length → f idx r = r) :
    mapIdx f l n = l := by
  induction l generalizing n with
  | nil => rfl
  | cons r rs ih =>
    rw [mapIdx, h n r (by omega) (by simp), ih]
    intro idx r' h1 h2
    exact h idx r' (by omega) (by simp; omega)

theorem mapIdx_map_of (f : Nat → Run → Run) (g : Run → Run) (l : List Run) (n : Nat)
    (h : ∀ idx r, n ≤ idx → idx < n + l.length → f idx r = g r) :
    mapIdx f l n = l.map g := by
  induction l generalizing n with
  | nil => rfl
  | cons r rs ih =>
    rw [mapIdx, h n r (by omega) (by simp), List.map_cons, ih]
    intro idx r' h1 h2
    exact h idx r' (by omega) (by simp; omega)

theorem fullText_blanked (g : Run → Run) (M : List Run)
    (h : ∀ r, runText (g r) = []) : fullText (M.map g) = [] := by
  induction M with
  | nil => rfl
  | cons r rs ih => simp [fullText_cons, h, ih]

/-- Split a run list at two indices `si < ei` into
before / start run / middle / end run / after. -/
theorem runs_decomp (runs : List Run) (si ei : Nat) (rsi rei : Run)
    (hsi : runs[si]? = some rsi) (hei : runs[ei]? = some rei) (hlt : si < ei) :
    runs = runs.take si ++ rsi ::
      (((runs.drop (si + 1)).take (ei - si - 1)) ++ rei :: runs.drop (ei + 1)) := by
  obtain ⟨hsib, hsiv⟩ := List.getElem?_eq_some.mp hsi
  obtain ⟨heib, heiv⟩ := List.getElem?_eq_some.mp hei
  have h1 : runs = runs.take si ++ runs.drop si := (List.take_append_drop si runs).symm
  have h2 : runs.drop si = rsi :: runs.drop (si + 1) := by
    rw [List.drop_eq_getElem_cons hsib, hsiv]
  have h3 : runs.drop (si + 1) =
      (runs.drop (si + 1)).take (ei - si - 1) ++ (runs.drop (si + 1)).drop (ei - si - 1) :=
    (List.take_append_drop _ _).symm
  have h4 : (runs.drop (si + 1)).drop (ei - si - 1) = runs.drop ei := by
    rw [List.drop_drop]
    congr 1
    omega
  have h5 : runs.drop ei = rei :: runs.drop (ei + 1) := by
    rw [List.drop_eq_getElem_cons heib, heiv]
  conv_lhs => rw [h1, h2, h3, h4, h5]

/-- Split a run list at one index. -/
theorem runs_decomp_one (runs : List Run) (si : Nat) (rsi : Run)
    (hsi : runs[si]? = some rsi) :
    runs = runs.take si ++ rsi :: runs.drop (si + 1) := by
  obtain ⟨hsib, hsiv⟩ := List.getElem?_eq_some.mp hsi
  have h1 : runs = runs.take si ++ runs.drop si := (List.take_append_drop si runs).symm
  have h2 : runs.drop si = rsi :: runs.drop (si + 1) := by
    rw [List.drop_eq_getElem_cons hsib, hsiv]
  conv_lhs => rw [h1, h2]

theorem mapIdx_congr (f g : Nat → Run → Run) (l : List Run) (n : Nat)
    (h : ∀ idx r, f idx r = g idx r) : mapIdx f l n = mapIdx g l n := by
  induction l generalizing n with
  | nil => rfl
  | cons r rs ih => rw [mapIdx, mapIdx, h, ih]

theorem pyGet_natCast (runs : List Run) (k : Nat) :
    pyGet (charMap runs) (k : Int) = locate runs k := by
  rw [pyGet, if_pos (by omega)]
  simp only [Int.toNat_natCast]
  exact charMap_getElem runs k

theorem int_end_idx (pos L : Nat) (hL : L ≠ 0) :
    (pos : Int) + L - 1 = ((pos + L - 1 : Nat) : Int) := by
  omega

theorem replaceStep_cross (runs : List Run) (old new : List Char)
    (pos si sc ei ec : Nat)
    (hold : old ≠ [])
    (hfind : findSub (fullText runs) old = some pos)
    (h1 : locate runs pos = some (si, sc))
    (h2 : locate runs (pos + old.length - 1) = some (ei, ec))
    (hne : si ≠ ei) :
    replaceStep runs old new = some (mapIdx (crossFun si sc ei ec new) runs 0, true) := by
  have hL : 0 < old.length := List.length_pos.mpr hold
  have hlt : si < ei := by
    have hle : si ≤ ei :=
      locate_mono runs pos (pos + old.length - 1) si sc ei ec h1 h2 (by omega)
    omega
  have e1 : pyGet (charMap runs) (pos : Int) = some (si, sc) := by
    rw [pyGet_natCast]; exact h1
  have e2 : pyGet (charMap runs) ((pos : Int) + old.length - 1) = some (ei, ec) := by
    rw [int_end_idx pos old.length (by simpa using hold), pyGet_natCast]
    exact h2
  rw [replaceStep, hfind]
  simp only [e1, e2]
  rw [if_neg hne]
  simp only [stripRange, blankMiddles, updateRun]
  rw [mapIdx_mapIdx, mapIdx_mapIdx, mapIdx_mapIdx]
  refine congrArg (fun x => some (x, true)) (mapIdx_congr _ _ runs 0 ?_)
  intro idx r
  unfold crossFun
  split_ifs <;> first | rfl | omega

theorem crossFun_fullText (runs : List Run) (old new : List Char)
    (pos si sc ei ec : Nat)
    (hold : old ≠ [])
    (hfind : findSub (fullText runs) old = some pos)
    (h1 : locate runs pos = some (si, sc))
    (h2 : locate runs (pos + old.length - 1) = some (ei, ec))
    (hne : si ≠ ei) :
    fullText (mapIdx (crossFun si sc ei ec new) runs 0) =
      (fullText runs).take pos ++ new ++ (fullText runs).drop (pos + old.length) := by
  have hL : 0 < old.length := List.length_pos.mpr hold
  have hlt : si < ei := by
    have hle : si ≤ ei :=
      locate_mono runs pos (pos + old.length - 1) si sc ei ec h1 h2 (by omega)
    omega
  obtain ⟨rsi, hrsi, hsc, hpos⟩ := locate_spec runs pos si sc h1
  obtain ⟨rei, hrei, hec, hpos2⟩ := locate_spec runs (pos + old.length - 1) ei ec h2
  have hsib : si < runs.length := (List.getElem?_eq_some.mp hrsi).1
  have heib : ei < runs.length := (List.getElem?_eq_some.mp hrei).1
  have hdec := runs_decomp runs si ei rsi rei hrsi hrei hlt
  set A := runs.take si with hAdef
  set M := (runs.drop (si + 1)).take (ei - si - 1) with hMdef
  set P := runs.drop (ei + 1) with hPdef
  have hA : A.length = si := by rw [hAdef]; simp; omega
  have hM : M.length = ei - si - 1 := by rw [hMdef]; simp; omega
  -- the take ei prefix of runs, for preLen runs ei
  have htakeei : runs.take ei = A ++ rsi :: M := by
    conv_lhs => rw [hdec]
    rw [List.take_append_eq_append_take, List.take_of_length_le (by omega)]
    congr 1
    have he1 : ei - A.length = (ei - si - 1) + 1 := by omega
    rw [he1, List.take_succ_cons]
    congr 1
    rw [List.take_append_eq_append_take, List.take_of_length_le (by omega)]
    have he2 : ei - si - 1 - M.length = 0 := by omega
    rw [he2]
    simp
  have hpre_si : preLen runs si = (fullText A).length := rfl
  have hpre_ei : preLen runs ei =
      (fullText A).length + (runText rsi).length + (fullText M).length := by
    rw [preLen, htakeei, fullText_append, fullText_cons]
    simp
    omega
  -- decompose the concatenated text
  have hdecft : fullText runs =
      fullText A ++ (runText rsi ++ (fullText M ++ (runText rei ++ fullText P))) := by
    conv_lhs => rw [hdec]
    rw [fullText_append, fullText_cons, fullText_append, fullText_cons]
  -- evaluate the rewritten list segment by segment
  have hseg : mapIdx (crossFun si sc ei ec new) runs 0 =
      A ++ stripRun (setText rsi ((runText rsi).take sc ++ new)) ::
        (M.map (fun r => stripRun (setText r [])) ++
          stripRun (setText rei ((runText rei).drop (ec + 1))) :: P) := by
    conv_lhs => rw [hdec]
    rw [mapIdx_append, mapIdx, mapIdx_append, mapIdx]
    rw [mapIdx_id_of _ A 0 (by
      intro idx r ha hb
      rw [crossFun, if_neg (by omega), if_neg (by omega), if_neg (by omega)])]
    rw [hA]
    have hc1 : crossFun si sc ei ec new (0 + si) rsi =
        stripRun (setText rsi ((runText rsi).take sc ++ new)) := by
      rw [crossFun, if_pos (by omega)]
    rw [hc1]
    rw [mapIdx_map_of _ (fun r => stripRun (setText r [])) M (0 + si + 1) (by
      intro idx r ha hb
      rw [crossFun, if_neg (by omega), if_pos (by omega)])]
    have hc2 : crossFun si sc ei ec new (0 + si + 1 + M.length) rei =
        stripRun (setText rei ((runText rei).drop (ec + 1))) := by
      rw [crossFun, if_neg (by omega), if_neg (by omega), if_pos (by omega)]
    rw [hc2]
    rw [mapIdx_id_of _ P (0 + si + 1 + M.length + 1) (by
      intro idx r ha hb
      rw [crossFun, if_neg (by omega), if_neg (by omega), if_neg (by omega)])]
  -- the two sides of the text equation
  have hblank : fullText (M.map (fun r => stripRun (setText r []))) = [] :=
    fullText_blanked _ M (fun r => rfl)
  have htakepos : (fullText runs).take pos =
      fullText A ++ (runText rsi).take sc := by
    rw [hdecft, List.take_append_eq_append_take,
      List.take_of_length_le (by omega), List.take_append_eq_append_take]
    have e1 : pos - (fullText A).length = sc := by omega
    have e2 : pos - (fullText A).length - (runText rsi).length = 0 := by omega
    rw [e2, e1]
    simp
  have hdroppos : (fullText runs).drop (pos + old.length) =
      (runText rei).drop (ec + 1) ++ fullText P := by
    rw [hdecft, List.drop_append_eq_append_drop,
      List.drop_eq_nil_of_le (by omega), List.drop_append_eq_append_drop,
      List.drop_eq_nil_of_le (by omega), List.drop_append_eq_append_drop,
      List.drop_eq_nil_of_le (by omega), List.drop_append_eq_append_drop]
    have e3 : pos + old.length - (fullText A).length - (runText rsi).length -
        (fullText M).length = ec + 1 := by omega
    have e4 : pos + old.length - (fullText A).length - (runText rsi).length -
        (fullText M).length - (runText rei).length = 0 := by omega
    rw [e4, e3]
    simp
  rw [hseg, htakepos, hdroppos, fullText_append, fullText_cons, fullText_append,
    fullText_cons, hblank]
  show fullText A ++ (((runText rsi).take sc ++ new) ++
      ([] ++ ((runText rei).drop (ec + 1) ++ fullText P))) =
    (fullText A ++ (runText rsi).take sc) ++ new ++
      ((runText rei).drop (ec + 1) ++ fullText P)
  simp [List.append_assoc]

theorem replaceStep_same (runs : List Run) (old new : List Char)
    (pos si sc ec : Nat)
    (hold : old ≠ [])
    (hfind : findSub (fullText runs) old = some pos)
    (h1 : locate runs pos = some (si, sc))
    (h2 : locate runs (pos + old.length - 1) = some (si, ec)) :
    replaceStep runs old new = some (mapIdx (sameFun si old new) runs 0, true) := by
  have e1 : pyGet (charMap runs) (pos : Int) = some (si, sc) := by
    rw [pyGet_natCast]; exact h1
  have e2 : pyGet (charMap runs) ((pos : Int) + old.length - 1) = some (si, ec) := by
    rw [int_end_idx pos old.length (by simpa using hold), pyGet_natCast]
    exact h2
  rw [replaceStep, hfind]
  simp only [e1, e2]
  simp only [if_true, ite_true, if_pos]
  simp only [stripRange, updateRun]
  rw [mapIdx_mapIdx]
  refine congrArg (fun x => some (x, true)) (mapIdx_congr _ _ runs 0 ?_)
  intro idx r
  unfold sameFun
  split_ifs <;> first | rfl | omega

theorem sameFun_fullText (runs : List Run) (old new : List Char)
    (pos si sc ec : Nat)
    (hold : old ≠ [])
    (hfind : findSub (fullText runs) old = some pos)
    (h1 : locate runs pos = some (si, sc))
    (h2 : locate runs (pos + old.length - 1) = some (si, ec)) :
    fullText (mapIdx (sameFun si old new) runs 0) =
      (fullText runs).take pos ++ new ++ (fullText runs).drop (pos + old.length) := by
  have hL : 0 < old.length := List.length_pos.mpr hold
  obtain ⟨rsi, hrsi, hsc, hpos⟩ := locate_spec runs pos si sc h1
  obtain ⟨rsi', hrsi', hec, hpos2⟩ := locate_spec runs (pos + old.length - 1) si ec h2
  rw [hrsi] at hrsi'
  obtain rfl : rsi = rsi' := by
    have := Option.some_inj.mp hrsi'
    exact this
  have hsib : si < runs.length := (List.getElem?_eq_some.mp hrsi).1
  have hecsc : ec = sc + old.length - 1 := by omega
  have hscL : sc + old.length ≤ (runText rsi).length := by omega
  have hdec := runs_decomp_one runs si rsi hrsi
  set A := runs.take si with hAdef
  set P := runs.drop (si + 1) with hPdef
  have hA : A.length = si := by rw [hAdef]; simp; omega
  have hpre_si : preLen runs si = (fullText A).length := rfl
  have hdecft : fullText runs = fullText A ++ (runText rsi ++ fullText P) := by
    conv_lhs => rw [hdec]
    rw [fullText_append, fullText_cons]
  have hdropgen : ∀ q, q ≤ (runText rsi).length →
      (fullText runs).drop ((fullText A).length + q) =
        (runText rsi).drop q ++ fullText P := by
    intro q hq
    rw [hdecft, List.drop_append_eq_append_drop, List.drop_eq_nil_of_le (by omega),
      List.drop_append_eq_append_drop]
    have g1 : (fullText A).length + q - (fullText A).length = q := by omega
    rw [g1]
    have g2 : q - (runText rsi).length = 0 := by omega
    rw [g2]
    simp
  have htakegen : ∀ q, q + old.length ≤ (runText rsi).length →
      ((runText rsi).drop q ++ fullText P).take old.length =
        ((runText rsi).drop q).take old.length := by
    intro q hq
    rw [List.take_append_eq_append_take]
    have : old.length - ((runText rsi).drop q).length = 0 := by simp; omega
    rw [this]
    simp
  have hoccAt : ∀ q, q + old.length ≤ (runText rsi).length →
      (occursAt (fullText runs) old ((fullText A).length + q) ↔
        occursAt (runText rsi) old q) := by
    intro q hq
    unfold occursAt
    rw [hdropgen q (by omega), htakegen q hq]
  obtain ⟨hocc, -, hmin⟩ := findSub_some _ _ _ hfind
  have hoccsi : occursAt (runText rsi) old sc := by
    rw [← hoccAt sc hscL]
    have : (fullText A).length + sc = pos := by omega
    rw [this]
    exact hocc
  have hminsi : ∀ q, q < sc → ¬ occursAt (runText rsi) old q := by
    intro q hqlt hq
    have hqL : q + old.length ≤ (runText rsi).length :=
      occursAt_length hq hold
    rw [← hoccAt q hqL] at hq
    exact hmin ((fullText A).length + q) (by omega) hq
  have hfirst : findSub (runText rsi) old = some sc := by
    obtain ⟨m, hm, hfm⟩ := occursAt_findSub _ _ _ hoccsi
    have := (findSub_some _ _ _ hfm).1
    rcases Nat.lt_or_ge m sc with hlt | hge
    · exact absurd this (hminsi m hlt)
    · have : m = sc := by omega
      rw [← this]
      exact hfm
  have hrepl : replaceFirst (runText rsi) old new =
      (runText rsi).take sc ++ new ++ (runText rsi).drop (sc + old.length) := by
    rw [replaceFirst, hfirst]
  have hseg : mapIdx (sameFun si old new) runs 0 =
      A ++ stripRun (setText rsi (replaceFirst (runText rsi) old new)) :: P := by
    conv_lhs => rw [hdec]
    rw [mapIdx_append, mapIdx]
    rw [mapIdx_id_of _ A 0 (by
      intro idx r ha hb
      rw [sameFun, if_neg (by omega)])]
    rw [hA]
    have hc1 : sameFun si old new (0 + si) rsi =
        stripRun (setText rsi (replaceFirst (runText rsi) old new)) := by
      rw [sameFun, if_pos (by omega)]
    rw [hc1]
    rw [mapIdx_id_of _ P (0 + si + 1) (by
      intro idx r ha hb
      rw [sameFun, if_neg (by omega)])]
  have htakepos : (fullText runs).take pos = fullText A ++ (runText rsi).take sc := by
    rw [hdecft, List.take_append_eq_append_take,
      List.take_of_length_le (by omega), List.take_append_eq_append_take]
    have e1 : pos - (fullText A).length = sc := by omega
    have e2 : pos - (fullText A).length - (runText rsi).length = 0 := by omega
    rw [e2, e1]
    simp
  have hdroppos : (fullText runs).drop (pos + old.length) =
      (runText rsi).drop (sc + old.length) ++ fullText P := by
    have : pos + old.length = (fullText A).length + (sc + old.length) := by omega
    rw [this]
    exact hdropgen (sc + old.length) hscL
  rw [hseg, htakepos, hdroppos, fullText_append, fullText_cons]
  show fullText A ++ (replaceFirst (runText rsi) old new ++ fullText P) =
    (fullText A ++ (runText rsi).take sc) ++ new ++
      ((runText rsi).drop (sc + old.length) ++ fullText P)
  rw [hrepl]
  simp [List.append_assoc]

theorem mem_mapIdx (f : Nat → Run → Run) (l : List Run) (n : Nat) :
    ∀ r' ∈ mapIdx f l n, ∃ idx r, r ∈ l ∧ r' = f idx r := by
  induction l generalizing n with
  | nil => intro r' h; simp [mapIdx] at h
  | cons r rs ih =>
    intro r' h
    rw [mapIdx] at h
    rcases List.mem_cons.mp h with h | h
    · exact ⟨n, r, List.mem_cons_self r rs, h⟩
    · obtain ⟨idx, r₀, hr₀, he⟩ := ih (n + 1) r' h
      exact ⟨idx, r₀, List.mem_cons_of_mem r hr₀, he⟩

theorem crossFun_isSome (si sc ei ec : Nat) (new : List Char) (idx : Nat) (r : Run)
    (h : r.t.isSome = true) : ((crossFun si sc ei ec new idx r).t).isSome = true := by
  unfold crossFun
  split_ifs <;> simp [stripRun, setText, h]

theorem sameFun_isSome (si : Nat) (old new : List Char) (idx : Nat) (r : Run)
    (h : r.t.isSome = true) : ((sameFun si old new idx r).t).isSome = true := by
  unfold sameFun
  split_ifs <;> simp [stripRun, setText, h]

/-- A found `old`: the replacement happens, the concatenated text gets the
first occurrence spliced out for `new`, run count and text-carrying status
are preserved. -/
theorem replaceStep_found (runs : List Run) (old new : List Char) (pos : Nat)
    (hold : old ≠ []) (hfind : findSub (fullText runs) old = some pos)
    (hsome : ∀ r ∈ runs, r.t.isSome = true) :
    ∃ runsOut, replaceStep runs old new = some (runsOut, true) ∧
      fullText runsOut =
        (fullText runs).take pos ++ new ++ (fullText runs).drop (pos + old.length) ∧
      runsOut.length = runs.length ∧
      (∀ r ∈ runsOut, r.t.isSome = true) := by
  have hL : 0 < old.length := List.length_pos.mpr hold
  have hocc := (findSub_some _ _ _ hfind).1
  have hbound : pos + old.length ≤ (fullText runs).length := occursAt_length hocc hold
  have hpos1 : pos < (fullText runs).length := by omega
  have hpos2 : pos + old.length - 1 < (fullText runs).length := by omega
  obtain ⟨⟨si, sc⟩, h1⟩ := Option.isSome_iff_exists.mp (locate_isSome runs pos hpos1)
  obtain ⟨⟨ei, ec⟩, h2⟩ :=
    Option.isSome_iff_exists.mp (locate_isSome runs (pos + old.length - 1) hpos2)
  by_cases hne : si = ei
  · subst hne
    refine ⟨mapIdx (sameFun si old new) runs 0,
      replaceStep_same runs old new pos si sc ec hold hfind h1 h2,
      sameFun_fullText runs old new pos si sc ec hold hfind h1 h2,
      mapIdx_length _ runs 0, ?_⟩
    intro r' hr'
    obtain ⟨idx, r, hr, rfl⟩ := mem_mapIdx _ runs 0 r' hr'
    exact sameFun_isSome si old new idx r (hsome r hr)
  · refine ⟨mapIdx (crossFun si sc ei ec new) runs 0,
      replaceStep_cross runs old new pos si sc ei ec hold hfind h1 h2 hne,
      crossFun_fullText runs old new pos si sc ei ec hold hfind h1 h2 hne,
      mapIdx_length _ runs 0, ?_⟩
    intro r' hr'
    obtain ⟨idx, r, hr, rfl⟩ := mem_mapIdx _ runs 0 r' hr'
    exact crossFun_isSome si sc ei ec new idx r (hsome r hr)

theorem collectRuns_isSome (p : Para) : ∀ r ∈ collectRuns p, r.t.isSome = true := by
  induction p with
  | nil => intro r h; simp [collectRuns] at h
  | cons c rest ih =>
    intro r h
    match c with
    | PChild.run r₀ =>
      rw [collectRuns] at h
      rcases List.mem_append.mp h with h | h
      · by_cases hs : r₀.t.isSome
        · rw [if_pos hs] at h
          simp at h
          rw [h]
          exact hs
        · rw [if_neg hs] at h
          simp at h
      · exact ih r h
    | PChild.hyperlink rs =>
      rw [collectRuns] at h
      rcases List.mem_append.mp h with h | h
      · exact (List.mem_filter.mp h).2
      · exact ih r h
    | PChild.other =>
      rw [collectRuns] at h
      exact ih r h

theorem setRunsList_nil (new : List Run) : setRunsList [] new = ([], new) := rfl

theorem setRunsList_cons (r : Run) (rs new : List Run) :
    setRunsList (r :: rs) new =
      if r.t.isSome then
        match new with
        | [] => ((r :: (setRunsList rs []).1), (setRunsList rs []).2)
        | r' :: new' => ((r' :: (setRunsList rs new').1), (setRunsList rs new').2)
      else ((r :: (setRunsList rs new).1), (setRunsList rs new).2) := by
  rw [setRunsList.eq_def]

theorem setCollectedAux_nil (new : List Run) : setCollectedAux [] new = ([], new) := rfl

theorem setCollectedAux_run (r : Run) (rest : Para) (new : List Run) :
    setCollectedAux (PChild.run r :: rest) new =
      if r.t.isSome then
        match new with
        | [] => ((PChild.run r :: (setCollectedAux rest []).1), (setCollectedAux rest []).2)
        | r' :: new' =>
          ((PChild.run r' :: (setCollectedAux rest new').1), (setCollectedAux rest new').2)
      else ((PChild.run r :: (setCollectedAux rest new).1), (setCollectedAux rest new).2) := by
  rw [setCollectedAux.eq_def]

theorem setCollectedAux_link (rs : List Run) (rest : Para) (new : List Run) :
    setCollectedAux (PChild.hyperlink rs :: rest) new =
      ((PChild.hyperlink (setRunsList rs new).1 ::
          (setCollectedAux rest (setRunsList rs new).2).1),
        (setCollectedAux rest (setRunsList rs new).2).2) := by
  rw [setCollectedAux.eq_def]

theorem setCollectedAux_other (rest : Para) (new : List Run) :
    setCollectedAux (PChild.other :: rest) new =
      ((PChild.other :: (setCollectedAux rest new).1), (setCollectedAux rest new).2) := by
  rw [setCollectedAux.eq_def]

theorem setRunsList_id (rs : List Run) (rest : List Run) :
    setRunsList rs (rs.filter (fun r => r.t.isSome) ++ rest) = (rs, rest) := by
  induction rs with
  | nil => simp [setRunsList_nil]
  | cons r rs ih =>
    rw [setRunsList_cons]
    by_cases hs : r.t.isSome
    · rw [if_pos hs]
      simp only [List.filter_cons, hs, if_true, List.cons_append]
      rw [ih]
    · rw [if_neg hs]
      simp only [List.filter_cons, hs, if_false, Bool.false_eq_true]
      rw [ih]

theorem setCollectedAux_id (p : Para) (rest : List Run) :
    setCollectedAux p (collectRuns p ++ rest) = (p, rest) := by
  induction p generalizing rest with
  | nil => simp [setCollectedAux_nil, collectRuns]
  | cons c p ih =>
    match c with
    | PChild.run r =>
      by_cases hs : r.t.isSome
      · rw [collectRuns, if_pos hs, setCollectedAux_run, if_pos hs]
        simp only [List.cons_append, List.nil_append]
        rw [ih]
      · rw [collectRuns, if_neg hs, setCollectedAux_run, if_neg hs]
        simp only [List.nil_append]
        rw [ih]
    | PChild.hyperlink rs =>
      rw [collectRuns, setCollectedAux_link, List.append_assoc, setRunsList_id]
      simp only
      rw [ih]
    | PChild.other =>
      rw [collectRuns, setCollectedAux_other, ih]

theorem setCollected_self (p : Para) : setCollected p (collectRuns p) = p := by
  rw [setCollected]
  have h := setCollectedAux_id p []
  rw [List.append_nil] at h
  rw [h]

theorem paraShape_cons (c : PChild) (p : Para) :
    paraShape (c :: p) =
      (match c with
        | PChild.run _ => Shape.runS
        | PChild.hyperlink rs => Shape.linkS rs.length
        | PChild.other => Shape.otherS) :: paraShape p := rfl

theorem setRunsList_spec (rs : List Run) : ∀ new,
    (rs.filter (fun r => r.t.isSome)).length ≤ new.length →
    (∀ r ∈ new, r.t.isSome = true) →
    (setRunsList rs new).1.filter (fun r => r.t.isSome) =
      new.take (rs.filter (fun r => r.t.isSome)).length ∧
    (setRunsList rs new).2 = new.drop (rs.filter (fun r => r.t.isSome)).length ∧
    (setRunsList rs new).1.length = rs.length := by
  induction rs with
  | nil => intro new _ _; simp [setRunsList_nil]
  | cons r rs ih =>
    intro new hlen hsome
    rw [setRunsList_cons]
    by_cases hs : r.t.isSome
    · simp only [List.filter_cons, hs, if_true] at hlen ⊢
      match new with
      | [] => simp at hlen
      | r' :: new' =>
        simp only [List.length_cons] at hlen ⊢
        obtain ⟨ha, hb, hc⟩ := ih new' (by omega)
          (fun x h => hsome x (List.mem_cons_of_mem r' h))
        have hr' : r'.t.isSome = true := hsome r' (List.mem_cons_self r' new')
        refine ⟨?_, ?_, ?_⟩
        · simp only [List.filter_cons, hr', if_true, List.take_succ_cons]
          rw [ha]
        · simp only [List.drop_succ_cons]
          rw [hb]
        · rw [hc]
    · simp only [List.filter_cons, hs, Bool.false_eq_true, if_false] at hlen ⊢
      obtain ⟨ha, hb, hc⟩ := ih new hlen hsome
      refine ⟨?_, ?_, ?_⟩
      · rw [ha]
      · rw [hb]
      · simp only [List.length_cons]
        rw [hc]

theorem setCollectedAux_spec (p : Para) : ∀ new,
    (collectRuns p).length ≤ new.length →
    (∀ r ∈ new, r.t.isSome = true) →
    collectRuns (setCollectedAux p new).1 = new.take (collectRuns p).length ∧
    (setCollectedAux p new).2 = new.drop (collectRuns p).length ∧
    paraShape (setCollectedAux p new).1 = paraShape p := by
  induction p with
  | nil => intro new _ _; simp [setCollectedAux_nil, collectRuns, paraShape]
  | cons c p ih =>
    intro new hlen hsome
    match c with
    | PChild.run r =>
      by_cases hs : r.t.isSome
      · rw [collectRuns, if_pos hs] at hlen ⊢
        rw [setCollectedAux_run, if_pos hs]
        match new with
        | [] => simp at hlen
        | r' :: new' =>
          simp only [List.singleton_append, List.length_cons] at hlen ⊢
          obtain ⟨ha, hb, hc⟩ := ih new' (by omega)
            (fun x h => hsome x (List.mem_cons_of_mem r' h))
          have hr' : r'.t.isSome = true := hsome r' (List.mem_cons_self r' new')
          refine ⟨?_, ?_, ?_⟩
          · rw [collectRuns, if_pos hr', ha]
            simp [List.take_succ_cons]
          · rw [hb]
            simp [List.drop_succ_cons]
          · rw [paraShape_cons, paraShape_cons, hc]
      · rw [collectRuns, if_neg hs] at hlen ⊢
        rw [setCollectedAux_run, if_neg hs]
        simp only [List.nil_append] at hlen ⊢
        obtain ⟨ha, hb, hc⟩ := ih new hlen hsome
        refine ⟨?_, ?_, ?_⟩
        · rw [collectRuns, if_neg hs, ha]
          simp
        · rw [hb]
        · rw [paraShape_cons, paraShape_cons, hc]
    | PChild.hyperlink rs =>
      rw [collectRuns] at hlen ⊢
      rw [setCollectedAux_link]
      simp only [List.length_append] at hlen
      obtain ⟨ra, rb, rc⟩ := setRunsList_spec rs new (by omega) hsome
      obtain ⟨ha, hb, hc⟩ := ih (setRunsList rs new).2 (by rw [rb]; simp; omega)
        (by rw [rb]; intro x h; exact hsome x (List.mem_of_mem_drop h))
      refine ⟨?_, ?_, ?_⟩
      · rw [collectRuns, ra, ha, rb, List.length_append, List.take_add]
      · rw [hb, rb, List.drop_drop, List.length_append]
      · rw [paraShape_cons, paraShape_cons, hc]
        simp only [rc]
    | PChild.other =>
      rw [collectRuns] at hlen ⊢
      rw [setCollectedAux_other]
      obtain ⟨ha, hb, hc⟩ := ih new hlen hsome
      refine ⟨by rw [collectRuns, ha], by rw [hb], ?_⟩
      rw [paraShape_cons, paraShape_cons, hc]

theorem setCollected_eq (p : Para) (new : List Run)
    (hlen : new.length = (collectRuns p).length)
    (hsome : ∀ r ∈ new, r.t.isSome = true) :
    collectRuns (setCollected p new) = new ∧
    paraShape (setCollected p new) = paraShape p := by
  obtain ⟨ha, -, hc⟩ := setCollectedAux_spec p new (by omega) hsome
  refine ⟨?_, hc⟩
  rw [setCollected, ha, ← hlen, List.take_length]

theorem replaceBracketedOne_not_found (p : Para) (old new : List Char)
    (h : collectRuns p = [] ∨ findSub (fullText (collectRuns p)) old = none) :
    replaceBracketedOne p old new = some (p, false) := by
  by_cases hc : collectRuns p = []
  · rw [replaceBracketedOne, if_pos hc]
  · rcases h with h | h
    · exact absurd h hc
    · rw [replaceBracketedOne, if_neg hc, replaceStep, h]
      simp only [setCollected_self]

theorem replaceBracketedOne_found (p : Para) (old new : List Char) (pos : Nat)
    (hold : old ≠ [])
    (hfind : findSub (fullText (collectRuns p)) old = some pos) :
    ∃ p', replaceBracketedOne p old new = some (p', true) ∧
      fullText (collectRuns p') =
        (fullText (collectRuns p)).take pos ++ new ++
          (fullText (collectRuns p)).drop (pos + old.length) ∧
      (collectRuns p').length = (collectRuns p).length ∧
      paraShape p' = paraShape p := by
  have hne : collectRuns p ≠ [] := by
    intro h
    rw [h] at hfind
    rw [fullText_nil] at hfind
    unfold findSub at hfind
    rw [if_neg hold] at hfind
    exact Option.noConfusion hfind
  obtain ⟨runsOut, hstep, htext, hlen, hsome⟩ :=
    replaceStep_found (collectRuns p) old new pos hold hfind (collectRuns_isSome p)
  obtain ⟨hcoll, hshape⟩ := setCollected_eq p runsOut (by omega) hsome
  refine ⟨setCollected p runsOut, ?_, ?_, ?_, hshape⟩
  · rw [replaceBracketedOne, if_neg hne, hstep]
  · rw [hcoll]
    exact htext
  · rw [hcoll]
    omega

/-- C1: a non-empty substring occurring exactly once in a paragraph's
concatenated run text is replaced (first occurrence, as `replaceFirst`
does) by one call of the rewriter; the concatenated text is the original
with that occurrence swapped for the new text, the number of collected runs
is unchanged and the paragraph keeps its child structure. -/
theorem claim1_replace_splices_text (p : Para) (old new : List Char)
    (hold : old ≠ [])
    (honce : occCount (fullText (collectRuns p)) old = 1) :
    ∃ p', replaceBracketedOne p old new = some (p', true) ∧
      fullText (collectRuns p') =
        replaceFirst (fullText (collectRuns p)) old new ∧
      (collectRuns p').length = (collectRuns p).length ∧
      paraShape p' = paraShape p := by
  obtain ⟨pos, hfind⟩ :=
    occCount_pos_findSub (fullText (collectRuns p)) old (by omega)
  obtain ⟨p', ha, hb, hc, hd⟩ := replaceBracketedOne_found p old new pos hold hfind
  refine ⟨p', ha, ?_, hc, hd⟩
  rw [hb, replaceFirst, hfind]

/-- Witness for C1: the three-run paragraph `["[", "Customer", "]"]` with
`old = "[Customer]"`, `new = "{customer_name}"`. -/
theorem claim1_witness :
    ∃ p', replaceBracketedOne
        [PChild.run { rPr := none, t := some "[".toList },
         PChild.run { rPr := none, t := some "Customer".toList },
         PChild.run { rPr := none, t := some "]".toList }]
        "[Customer]".toList "{customer_name}".toList = some (p', true) ∧
      fullText (collectRuns p') =
        replaceFirst (fullText (collectRuns
          [PChild.run { rPr := none, t := some "[".toList },
           PChild.run { rPr := none, t := some "Customer".toList },
           PChild.run { rPr := none, t := some "]".toList }]))
          "[Customer]".toList "{customer_name}".toList ∧
      (collectRuns p').length = (collectRuns
          [PChild.run { rPr := none, t := some "[".toList },
           PChild.run { rPr := none, t := some "Customer".toList },
           PChild.run { rPr := none, t := some "]".toList }]).length ∧
      paraShape p' = paraShape
          [PChild.run { rPr := none, t := some "[".toList },
           PChild.run { rPr := none, t := some "Customer".toList },
           PChild.run { rPr := none, t := some "]".toList }] :=
  claim1_replace_splices_text _ _ _ (by decide) (by decide)

/-- C4: with `old` absent from the concatenated run text — the run-less
paragraph included — one call of the rewriter mutates nothing, raises
nothing, and reports `false`. -/
theorem claim4_absent_no_op (p : Para) (old new : List Char)
    (h : collectRuns p = [] ∨ findSub (fullText (collectRuns p)) old = none) :
    replaceBracketedOne p old new = some (p, false) :=
  replaceBracketedOne_not_found p old new h

/-- Witness for C4: a paragraph with hyperlink and plain runs and an absent
substring, and the paragraph with no runs at all. -/
theorem claim4_witness :
    replaceBracketedOne
        [PChild.run { rPr := none, t := some "hello".toList },
         PChild.hyperlink [{ rPr := none, t := some " world".toList }]]
        "absent".toList "x".toList =
      some ([PChild.run { rPr := none, t := some "hello".toList },
         PChild.hyperlink [{ rPr := none, t := some " world".toList }]], false) ∧
    replaceBracketedOne [PChild.other] "absent".toList "x".toList =
      some ([PChild.other], false) :=
  ⟨claim4_absent_no_op _ _ _ (Or.inr (by decide)),
   claim4_absent_no_op _ _ _ (Or.inl (by decide))⟩

/-- C8: when the first call consumed the only occurrence, the second call
with the same arguments finds nothing and leaves the paragraph exactly as
the first call left it — each call re-collects runs and rebuilds the char
map from current state. -/
theorem claim8_idempotent_second_call (p p1 : Para) (old new : List Char) (b : Bool)
    (hfirst : replaceBracketedOne p old new = some (p1, b))
    (hgone : findSub (fullText (collectRuns p1)) old = none) :
    replaceBracketedOne p1 old new = some (p1, false) :=
  replaceBracketedOne_not_found p1 old new (Or.inr hgone)

/-- Witness for C8: replace `"[X]"` in a two-run paragraph, then run the
same replacement again. -/
theorem claim8_witness :
    replaceBracketedOne
        [PChild.run { rPr := none, t := some "a[".toList },
         PChild.run { rPr := none, t := some "X]b".toList }]
        "[X]".toList "{x}".toList =
      some ([PChild.run { rPr := none, t := some "a{x}".toList },
         PChild.run { rPr := none, t := some "b".toList }], true) ∧
    replaceBracketedOne
        [PChild.run { rPr := none, t := some "a{x}".toList },
         PChild.run { rPr := none, t := some "b".toList }]
        "[X]".toList "{x}".toList =
      some ([PChild.run { rPr := none, t := some "a{x}".toList },
         PChild.run { rPr := none, t := some "b".toList }], false) :=
  ⟨by decide,
   claim8_idempotent_second_call
     [PChild.run { rPr := none, t := some "a[".toList },
      PChild.run { rPr := none, t := some "X]b".toList }] _ "[X]".toList "{x}".toList
     true (by decide) (by decide)⟩

/-- C10: for a non-empty `old` found at `pos`, both char-map lookups (at
`pos` and at `pos + len(old) - 1`) are in bounds; and non-emptiness is
needed: with `old = ""` on a paragraph whose only run text is empty the end
index is `-1` on an empty char map, an `IndexError`. -/
theorem claim10_char_map_lookups_safe :
    (∀ (runs : List Run) (old : List Char) (pos : Nat), old ≠ [] →
      findSub (fullText runs) old = some pos →
      (pyGet (charMap runs) (pos : Int)).isSome = true ∧
      (pyGet (charMap runs) ((pos : Int) + old.length - 1)).isSome = true) ∧
    (findSub (fullText [{ rPr := none, t := some [] }]) [] = some 0 ∧
      pyGet (charMap [{ rPr := none, t := some [] }])
        ((0 : Int) + ([] : List Char).length - 1) = none ∧
      replaceStep [{ rPr := none, t := some [] }] [] ['q'] = none) := by
  constructor
  · intro runs old pos hold hfind
    have hL : 0 < old.length := List.length_pos.mpr hold
    have hocc := (findSub_some _ _ _ hfind).1
    have hbound : pos + old.length ≤ (fullText runs).length :=
      occursAt_length hocc hold
    have e1 : pyGet (charMap runs) (pos : Int) = locate runs pos :=
      pyGet_natCast runs pos
    have e2 : pyGet (charMap runs) ((pos : Int) + old.length - 1) =
        locate runs (pos + old.length - 1) := by
      rw [int_end_idx pos old.length (by omega), pyGet_natCast]
    rw [e1, e2]
    exact ⟨locate_isSome runs pos (by omega),
      locate_isSome runs (pos + old.length - 1) (by omega)⟩
  · refine ⟨by decide, by decide, by decide⟩

theorem findSub_ne_nil (p : Para) (old : List Char) (pos : Nat) (hold : old ≠ [])
    (hfind : findSub (fullText (collectRuns p)) old = some pos) :
    collectRuns p ≠ [] := by
  intro h
  rw [h, fullText_nil] at hfind
  unfold findSub at hfind
  rw [if_neg hold] at hfind
  exact Option.noConfusion hfind

/-- C2: in the cross-span case (match starts in run `si`, ends in a later
run `ei`), the start run keeps its text before the match followed by the
new text, every strictly interior run is blanked, and the end run keeps
only its text after the match. -/
theorem claim2_cross_span (p : Para) (old new : List Char)
    (pos si sc ei ec : Nat)
    (hold : old ≠ [])
    (hfind : findSub (fullText (collectRuns p)) old = some pos)
    (h1 : pyGet (charMap (collectRuns p)) (pos : Int) = some (si, sc))
    (h2 : pyGet (charMap (collectRuns p)) ((pos : Int) + old.length - 1) = some (ei, ec))
    (hlt : si < ei) :
    ∃ p', replaceBracketedOne p old new = some (p', true) ∧
      ((collectRuns p')[si]?).map runText =
        ((collectRuns p)[si]?).map (fun r => (runText r).take sc ++ new) ∧
      (∀ m, si < m → m < ei →
        ((collectRuns p')[m]?).map runText =
          ((collectRuns p)[m]?).map (fun _ => ([] : List Char))) ∧
      ((collectRuns p')[ei]?).map runText =
        ((collectRuns p)[ei]?).map (fun r => (runText r).drop (ec + 1)) := by
  have hl1 : locate (collectRuns p) pos = some (si, sc) := by
    rw [← pyGet_natCast]; exact h1
  have hl2 : locate (collectRuns p) (pos + old.length - 1) = some (ei, ec) := by
    rw [← pyGet_natCast, ← int_end_idx pos old.length (by simpa using hold)]
    exact h2
  have hstep := replaceStep_cross (collectRuns p) old new pos si sc ei ec hold
    hfind hl1 hl2 (by omega)
  have hne := findSub_ne_nil p old pos hold hfind
  have hsome : ∀ r ∈ mapIdx (crossFun si sc ei ec new) (collectRuns p) 0,
      r.t.isSome = true := by
    intro r' hr'
    obtain ⟨idx, r, hr, rfl⟩ := mem_mapIdx _ _ 0 r' hr'
    exact crossFun_isSome si sc ei ec new idx r (collectRuns_isSome p r hr)
  obtain ⟨hcoll, -⟩ := setCollected_eq p _ (by rw [mapIdx_length]) hsome
  refine ⟨setCollected p (mapIdx (crossFun si sc ei ec new) (collectRuns p) 0),
    by rw [replaceBracketedOne, if_neg hne, hstep], ?_, ?_, ?_⟩
  · rw [hcoll, mapIdx_getElem]
    cases hr : (collectRuns p)[si]? with
    | none => simp
    | some r =>
      simp only [Option.map_some']
      congr 1
      show runText (crossFun si sc ei ec new (0 + si) r) = (runText r).take sc ++ new
      rw [crossFun, if_pos (by omega)]
      rfl
  · intro m hm1 hm2
    rw [hcoll, mapIdx_getElem]
    cases hr : (collectRuns p)[m]? with
    | none => simp
    | some r =>
      simp only [Option.map_some']
      congr 1
      show runText (crossFun si sc ei ec new (0 + m) r) = []
      rw [crossFun, if_neg (by omega), if_pos (by omega)]
      rfl
  · rw [hcoll, mapIdx_getElem]
    cases hr : (collectRuns p)[ei]? with
    | none => simp
    | some r =>
      simp only [Option.map_some']
      congr 1
      show runText (crossFun si sc ei ec new (0 + ei) r) = (runText r).drop (ec + 1)
      rw [crossFun, if_neg (by omega), if_neg (by omega), if_pos (by omega)]
      rfl

/-- Witness for C2: runs `["[", "Customer", "]"]`, `old = "[Customer]"`,
`new = "{customer_name}"`; the run texts become the new text, then empty,
then empty. -/
theorem claim2_witness :
    (∃ p', replaceBracketedOne
        [PChild.run { rPr := none, t := some "[".toList },
         PChild.run { rPr := none, t := some "Customer".toList },
         PChild.run { rPr := none, t := some "]".toList }]
        "[Customer]".toList "{customer_name}".toList = some (p', true) ∧
      ((collectRuns p')[0]?).map runText =
        ((collectRuns
          [PChild.run { rPr := none, t := some "[".toList },
           PChild.run { rPr := none, t := some "Customer".toList },
           PChild.run { rPr := none, t := some "]".toList }])[0]?).map
          (fun r => (runText r).take 0 ++ "{customer_name}".toList) ∧
      (∀ m, 0 < m → m < 2 →
        ((collectRuns p')[m]?).map runText =
          ((collectRuns
            [PChild.run { rPr := none, t := some "[".toList },
             PChild.run { rPr := none, t := some "Customer".toList },
             PChild.run { rPr := none, t := some "]".toList }])[m]?).map
            (fun _ => ([] : List Char))) ∧
      ((collectRuns p')[2]?).map runText =
        ((collectRuns
          [PChild.run { rPr := none, t := some "[".toList },
           PChild.run { rPr := none, t := some "Customer".toList },
           PChild.run { rPr := none, t := some "]".toList }])[2]?).map
          (fun r => (runText r).drop (0 + 1))) ∧
    ("{customer_name}".toList.take 0 ++ "{customer_name}".toList,
        ([] : List Char), ([] : List Char)) =
      ("{customer_name}".toList, [], []) :=
  ⟨claim2_cross_span _ _ _ 0 0 0 2 0 (by decide) (by decide) (by decide)
    (by decide) (by decide), by decide⟩

theorem stripRun_flags (r : Run) :
    ∀ pr, (stripRun r).rPr = some pr →
      pr.i = false ∧ pr.iCs = false ∧ pr.color = false := by
  intro pr h
  rw [stripRun] at h
  cases hr : r.rPr with
  | none => rw [hr] at h; simp at h
  | some pr0 =>
    rw [hr] at h
    simp only [Option.map_some', Option.some_inj] at h
    rw [← h]
    exact ⟨rfl, rfl, rfl⟩

theorem crossFun_strips (si sc ei ec : Nat) (new : List Char) (m : Nat) (r : Run)
    (h1 : si ≤ m) (h2 : m ≤ ei) (hlt : si < ei) :
    ∃ r₀, crossFun si sc ei ec new m r = stripRun r₀ := by
  rw [crossFun]
  by_cases c1 : m = si
  · exact ⟨_, by rw [if_pos c1]⟩
  · by_cases c2 : m = ei
    · exact ⟨_, by rw [if_neg c1, if_neg (by omega), if_pos c2]⟩
    · exact ⟨_, by rw [if_neg c1, if_pos (by omega)]⟩

theorem sameFun_strips (si : Nat) (old new : List Char) (m : Nat) (r : Run)
    (h1 : si ≤ m) (h2 : m ≤ si) :
    ∃ r₀, sameFun si old new m r = stripRun r₀ := by
  rw [sameFun]
  exact ⟨_, by rw [if_pos (by omega)]⟩

/-- C6: after a successful replacement every run the match touches (start
run through end run) has the italic flags and explicit color removed from
its run properties. -/
theorem claim6_strips_placeholder_formatting (p : Para) (old new : List Char)
    (pos si sc ei ec : Nat)
    (hold : old ≠ [])
    (hfind : findSub (fullText (collectRuns p)) old = some pos)
    (h1 : pyGet (charMap (collectRuns p)) (pos : Int) = some (si, sc))
    (h2 : pyGet (charMap (collectRuns p)) ((pos : Int) + old.length - 1) = some (ei, ec)) :
    ∃ p', replaceBracketedOne p old new = some (p', true) ∧
      ∀ m r, si ≤ m → m ≤ ei → (collectRuns p')[m]? = some r →
        ∀ pr, r.rPr = some pr →
          pr.i = false ∧ pr.iCs = false ∧ pr.color = false := by
  have hl1 : locate (collectRuns p) pos = some (si, sc) := by
    rw [← pyGet_natCast]; exact h1
  have hl2 : locate (collectRuns p) (pos + old.length - 1) = some (ei, ec) := by
    rw [← pyGet_natCast, ← int_end_idx pos old.length (by simpa using hold)]
    exact h2
  have hne := findSub_ne_nil p old pos hold hfind
  by_cases heq : si = ei
  · subst heq
    have hstep := replaceStep_same (collectRuns p) old new pos si sc ec hold
      hfind hl1 hl2
    have hsome : ∀ r ∈ mapIdx (sameFun si old new) (collectRuns p) 0,
        r.t.isSome = true := by
      intro r' hr'
      obtain ⟨idx, r, hr, rfl⟩ := mem_mapIdx _ _ 0 r' hr'
      exact sameFun_isSome si old new idx r (collectRuns_isSome p r hr)
    obtain ⟨hcoll, -⟩ := setCollected_eq p _ (by rw [mapIdx_length]) hsome
    refine ⟨setCollected p (mapIdx (sameFun si old new) (collectRuns p) 0),
      by rw [replaceBracketedOne, if_neg hne, hstep], ?_⟩
    intro m r hm1 hm2 hget pr hpr
    rw [hcoll, mapIdx_getElem] at hget
    obtain ⟨r₀, hr₀, hfr₀⟩ := Option.map_eq_some'.mp hget
    obtain ⟨rx, hrx⟩ := sameFun_strips si old new (0 + m) r₀ (by omega) (by omega)
    rw [hrx] at hfr₀
    rw [← hfr₀] at hpr
    exact stripRun_flags rx pr hpr
  · have hstep := replaceStep_cross (collectRuns p) old new pos si sc ei ec hold
      hfind hl1 hl2 heq
    have hlt : si < ei := by
      have := locate_mono (collectRuns p) pos (pos + old.length - 1) si sc ei ec
        hl1 hl2 (by have := List.length_pos.mpr hold; omega)
      omega
    have hsome : ∀ r ∈ mapIdx (crossFun si sc ei ec new) (collectRuns p) 0,
        r.t.isSome = true := by
      intro r' hr'
      obtain ⟨idx, r, hr, rfl⟩ := mem_mapIdx _ _ 0 r' hr'
      exact crossFun_isSome si sc ei ec new idx r (collectRuns_isSome p r hr)
    obtain ⟨hcoll, -⟩ := setCollected_eq p _ (by rw [mapIdx_length]) hsome
    refine ⟨setCollected p (mapIdx (crossFun si sc ei ec new) (collectRuns p) 0),
      by rw [replaceBracketedOne, if_neg hne, hstep], ?_⟩
    intro m r hm1 hm2 hget pr hpr
    rw [hcoll, mapIdx_getElem] at hget
    obtain ⟨r₀, hr₀, hfr₀⟩ := Option.map_eq_some'.mp hget
    obtain ⟨rx, hrx⟩ := crossFun_strips si sc ei ec new (0 + m) r₀
      (by omega) (by omega) hlt
    rw [hrx] at hfr₀
    rw [← hfr₀] at hpr
    exact stripRun_flags rx pr hpr

theorem claim6_witness :
    (∃ p', replaceBracketedOne italFillPara
        "[Fill in]".toList "{effective_date}".toList = some (p', true) ∧
      ∀ m r, 0 ≤ m → m ≤ 0 → (collectRuns p')[m]? = some r →
        ∀ pr, r.rPr = some pr →
          pr.i = false ∧ pr.iCs = false ∧ pr.color = false) ∧
    replaceBracketedOne italFillPara
        "[Fill in]".toList "{effective_date}".toList =
      some ([PChild.run { rPr := some (stripProps italFillProps),
                          t := some "{effective_date}".toList }], true) :=
  ⟨claim6_strips_placeholder_formatting italFillPara _ _ 0 0 0 0 8
      (by decide) (by decide) (by decide) (by decide),
    by decide⟩

/-- The candidate loop never produces the warned outcome: the fallback
always trips over the unresolved name `sys`. -/
theorem tryApplyLicenseLoop_ne_warned (env : Env) (l : List (Option String)) :
    tryApplyLicenseLoop env l ≠ PyOutcome.warned := by
  induction l with
  | nil =>
    show (if moduleImports.contains "sys" then PyOutcome.warned
      else PyOutcome.nameError "sys") ≠ PyOutcome.warned
    rw [if_neg (by decide)]
    intro hcon
    exact PyOutcome.noConfusion hcon
  | cons c rest ih =>
    match c with
    | none => exact ih
    | some s =>
      show (if s = "" then tryApplyLicenseLoop env rest
        else if env.path_ok s then PyOutcome.applied s
        else tryApplyLicenseLoop env rest) ≠ PyOutcome.warned
      split_ifs with h1 h2
      · exact ih
      · intro hcon
        exact PyOutcome.noConfusion hcon
      · exact ih

/-- C3 (code bug): with no license file found anywhere, the fallback line
evaluates `sys.stderr`, but `sys` is not an imported name of the module, so
the call raises a `NameError` instead of warning and returning — and no
environment whatsoever can produce the warned-and-continue outcome. -/
theorem claim3_missing_license_raises_name_error :
    tryApplyLicense { junior_license := none, aspose_license := none,
                      path_ok := fun _ => false } = PyOutcome.nameError "sys" ∧
    moduleImports.contains "sys" = false ∧
    (∀ env : Env, tryApplyLicense env ≠ PyOutcome.warned) :=
  ⟨by decide, by decide, fun env => tryApplyLicenseLoop_ne_warned env (candidates env)⟩

theorem lastLabelRun_locate (pairs : List (Nat × Run)) : ∀ cc e, cc < e →
    lastLabelRun pairs cc e =
      (locate (pairs.map (fun x => x.2)) (e - cc - 1)).bind
        (fun x => pairs[x.1]?) := by
  induction pairs with
  | nil => intro cc e h; simp [lastLabelRun, locate]
  | cons pr rest ih =>
    intro cc e h
    obtain ⟨ci, r⟩ := pr
    rw [lastLabelRun, List.map_cons, locate]
    by_cases hc : e ≤ cc + (runText r).length
    · rw [if_pos hc, if_pos (by simp; omega)]
      simp
    · rw [if_neg hc, if_neg (by simp; omega)]
      rw [ih (cc + (runText r).length) e (by omega)]
      have harg : e - (cc + (runText r).length) - 1 =
          e - cc - 1 - (runText r).length := by omega
      rw [harg]
      cases locate (rest.map (fun x => x.2)) (e - cc - 1 - (runText r).length) with
      | none => simp
      | some x => simp

theorem directRunsIdxAux_mem (p : Para) : ∀ (n m ci : Nat) (r : Run),
    (directRunsIdxAux p n)[m]? = some (ci, r) →
    n ≤ ci ∧ p[ci - n]? = some (PChild.run r) := by
  induction p with
  | nil => intro n m ci r h; simp [directRunsIdxAux] at h
  | cons c rest ih =>
    intro n m ci r h
    match c with
    | PChild.run r0 =>
      rw [directRunsIdxAux] at h
      by_cases hs : r0.t.isSome
      · rw [if_pos hs] at h
        match m with
        | 0 =>
          rw [List.getElem?_cons_zero] at h
          obtain ⟨h1, h2⟩ := Prod.ext_iff.mp (Option.some_inj.mp h)
          simp only at h1 h2
          subst h1
          subst h2
          refine ⟨le_refl n, ?_⟩
          simp
        | m + 1 =>
          rw [List.getElem?_cons_succ] at h
          obtain ⟨hle, hp⟩ := ih (n + 1) m ci r h
          refine ⟨by omega, ?_⟩
          rw [show ci - n = ci - (n + 1) + 1 by omega, List.getElem?_cons_succ]
          exact hp
      · rw [if_neg hs] at h
        obtain ⟨hle, hp⟩ := ih (n + 1) m ci r h
        refine ⟨by omega, ?_⟩
        rw [show ci - n = ci - (n + 1) + 1 by omega, List.getElem?_cons_succ]
        exact hp
    | PChild.hyperlink rs =>
      rw [directRunsIdxAux] at h
      obtain ⟨hle, hp⟩ := ih (n + 1) m ci r h
      refine ⟨by omega, ?_⟩
      rw [show ci - n = ci - (n + 1) + 1 by omega, List.getElem?_cons_succ]
      exact hp
    | PChild.other =>
      rw [directRunsIdxAux] at h
      obtain ⟨hle, hp⟩ := ih (n + 1) m ci r h
      refine ⟨by omega, ?_⟩
      rw [show ci - n = ci - (n + 1) + 1 by omega, List.getElem?_cons_succ]
      exact hp

/-- C5: when the label occurs in the concatenation of the direct-child run
texts, exactly one new run with text a space followed by the tag is
inserted immediately after the child run containing the label's last
character (located through the cumulative character count), and every
pre-existing child — hence every pre-existing run text — is kept unchanged
in order. -/
theorem claim5_append_tag_after_label (p : Para) (label tg : List Char) (s : Nat)
    (hlab : label ≠ [])
    (hfind : findSub (fullText (directChildRuns p)) label = some s) :
    ∃ m j ci r,
      locate (directChildRuns p) (s + label.length - 1) = some (m, j) ∧
      (directRunsIdx p)[m]? = some (ci, r) ∧
      p[ci]? = some (PChild.run r) ∧
      appendTagAfterLabel p label tg =
        p.take (ci + 1) ++
          PChild.run { rPr := r.rPr.map stripBold, t := some (' ' :: tg) } ::
            p.drop (ci + 1) := by
  have hL : 0 < label.length := List.length_pos.mpr hlab
  have hocc := (findSub_some _ _ _ hfind).1
  have hbound : s + label.length ≤ (fullText (directChildRuns p)).length :=
    occursAt_length hocc hlab
  obtain ⟨⟨m, j⟩, hm⟩ := Option.isSome_iff_exists.mp
    (locate_isSome (directChildRuns p) (s + label.length - 1) (by omega))
  obtain ⟨rm, hrm, -, -⟩ := locate_spec (directChildRuns p) (s + label.length - 1) m j hm
  have hmlt : m < (directRunsIdx p).length := by
    have := (List.getElem?_eq_some.mp hrm).1
    rw [directChildRuns] at this
    simpa using this
  rcases hp : (directRunsIdx p).get ⟨m, hmlt⟩ with ⟨ci, r⟩
  have hdm : (directRunsIdx p)[m]? = some (ci, r) := by
    rw [List.getElem?_eq_getElem hmlt]
    have h2 : (directRunsIdx p)[m] = (ci, r) := hp
    rw [h2]
  obtain ⟨-, hpci⟩ := directRunsIdxAux_mem p 0 m ci r (by rwa [directRunsIdx] at hdm)
  have hne : directRunsIdx p ≠ [] := by
    intro h0
    rw [h0] at hdm
    simp at hdm
  have hlsome : (directRunsIdx p).getLast?.isSome = true := by
    rw [List.getLast?_isSome]
    exact hne
  obtain ⟨lastPair, hlastq⟩ := Option.isSome_iff_exists.mp hlsome
  have hm' : locate ((directRunsIdx p).map (fun x => x.2))
      (s + label.length - 1) = some (m, j) := by
    rw [← directChildRuns]
    exact hm
  have hll : lastLabelRun (directRunsIdx p) 0 (s + label.length) = some (ci, r) := by
    rw [lastLabelRun_locate (directRunsIdx p) 0 (s + label.length) (by omega)]
    have harg : s + label.length - 0 - 1 = s + label.length - 1 := by omega
    rw [harg, hm']
    simpa using hdm
  have hfind' : findSub (fullText ((directRunsIdx p).map (fun x => x.2)))
      label = some s := by
    rw [← directChildRuns]
    exact hfind
  refine ⟨m, j, ci, r, hm, hdm, by simpa using hpci, ?_⟩
  rw [appendTagAfterLabel]
  simp only [hlastq, hfind', hll, Option.getD_some]

/-- Witness for C5: spans `["Party Name", ":"]` with label `"Party Name:"`;
the new span `" {party_1_name}"` lands right after the `":"` span and the
two original spans keep their text. -/
theorem claim5_witness :
    (∃ m j ci r,
      locate (directChildRuns partyNamePara)
        (0 + "Party Name:".toList.length - 1) = some (m, j) ∧
      (directRunsIdx partyNamePara)[m]? = some (ci, r) ∧
      partyNamePara[ci]? = some (PChild.run r) ∧
      appendTagAfterLabel partyNamePara "Party Name:".toList "{party_1_name}".toList =
        partyNamePara.take (ci + 1) ++
          PChild.run { rPr := r.rPr.map stripBold, t := some (' ' :: "{party_1_name}".toList) } ::
            partyNamePara.drop (ci + 1)) ∧
    appendTagAfterLabel partyNamePara "Party Name:".toList "{party_1_name}".toList =
      partyNamePara ++
        [PChild.run { rPr := some (stripBold partyColonProps),
                      t := some " {party_1_name}".toList }] :=
  ⟨claim5_append_tag_after_label partyNamePara _ _ 0 (by decide) (by decide),
   by decide⟩

/-- C7 as claimed: both operations flatten direct and hyperlink-nested runs
while skipping empty-text runs.  False on the code: a run with an empty
`w:t` is kept by `replace_bracketed_in_para`, and `append_tag_after_label`
never looks inside hyperlinks. -/
theorem claim7_counterexample :
    ¬ (directChildRuns [PChild.hyperlink [{ rPr := none, t := some ['x'] }]] =
        specFlattenNonEmpty [PChild.hyperlink [{ rPr := none, t := some ['x'] }]]) ∧
    ¬ (collectRuns [PChild.run { rPr := none, t := some [] }] =
        specFlattenNonEmpty [PChild.run { rPr := none, t := some [] }]) := by
  exact ⟨by decide, by decide⟩

theorem collectRuns_eq_allRuns_filter (p : Para) :
    collectRuns p = (allRuns p).filter (fun r => r.t.isSome) := by
  induction p with
  | nil => rfl
  | cons c rest ih =>
    match c with
    | PChild.run r => rw [collectRuns, allRuns, List.filter_cons, ih]; split_ifs <;> rfl
    | PChild.hyperlink rs => rw [collectRuns, allRuns, List.filter_append, ih]
    | PChild.other => rw [collectRuns, allRuns, ih]

theorem directChildRuns_spec (p : Para) : ∀ (n : Nat),
    (directRunsIdxAux p n).map (fun x => x.2) =
      (p.filterMap (fun c => match c with
        | PChild.run r => some r
        | _ => none)).filter (fun r => r.t.isSome) := by
  induction p with
  | nil => intro n; rfl
  | cons c rest ih =>
    intro n
    match c with
    | PChild.run r =>
      rw [directRunsIdxAux]
      by_cases hs : r.t.isSome
      · rw [if_pos hs, List.map_cons, ih]
        simp only [List.filterMap_cons]
        rw [List.filter_cons, if_pos hs]
      · rw [if_neg hs, ih]
        simp only [List.filterMap_cons]
        rw [List.filter_cons, if_neg hs]
    | PChild.hyperlink rs =>
      rw [directRunsIdxAux, ih]
      simp only [List.filterMap_cons]
    | PChild.other =>
      rw [directRunsIdxAux, ih]
      simp only [List.filterMap_cons]

theorem fullText_filter_isSome (runs : List Run) :
    fullText (runs.filter (fun r => r.t.isSome)) =
      fullText (runs.filter (fun r => !(runText r).isEmpty)) := by
  induction runs with
  | nil => rfl
  | cons r rest ih =>
    rw [List.filter_cons, List.filter_cons]
    by_cases hs : r.t.isSome = true
    · by_cases ht : runText r = []
      · have htb : ¬((!(runText r).isEmpty) = true) := by rw [ht]; decide
        rw [if_pos hs, if_neg htb, fullText_cons, ht, List.nil_append, ih]
      · have htb : (!(runText r).isEmpty) = true := by
          cases hrt : runText r with
          | nil => exact absurd hrt ht
          | cons c cs => simp
        rw [if_pos hs, if_pos htb, fullText_cons, fullText_cons, ih]
    · have ht : runText r = [] := by
        rw [runText]
        cases hr : r.t with
        | none => rfl
        | some v => rw [hr] at hs; simp at hs
      have htb : ¬((!(runText r).isEmpty) = true) := by rw [ht]; decide
      rw [if_neg hs, if_neg htb, ih]

/-- C7 amended: `replace_bracketed_in_para` flattens direct and
hyperlink-nested runs in document order keeping exactly those with a `w:t`
child (empty texts included — they only drop out of the concatenated text),
while `append_tag_after_label` keeps only direct-child runs with a `w:t`
child and never looks inside hyperlinks. -/
theorem claim7_amended_flattening (p : Para) :
    collectRuns p = (allRuns p).filter (fun r => r.t.isSome) ∧
    directChildRuns p =
      (p.filterMap (fun c => match c with
        | PChild.run r => some r
        | _ => none)).filter (fun r => r.t.isSome) ∧
    fullText (collectRuns p) = fullText (specFlattenNonEmpty p) := by
  refine ⟨collectRuns_eq_allRuns_filter p, directChildRuns_spec p 0, ?_⟩
  rw [collectRuns_eq_allRuns_filter, specFlattenNonEmpty, fullText_filter_isSome]

theorem removeOthers_past (p : Para) : ∀ (n k : Nat) (nt : List Char), k < n →
    allRuns (removeOthers p n k nt) = [] := by
  induction p with
  | nil => intro n k nt _; rfl
  | cons c rest ih =>
    intro n k nt h
    match c with
    | PChild.run r0 =>
      rw [removeOthers, if_neg (by omega)]
      exact ih (n + 1) k nt (by omega)
    | PChild.hyperlink rs =>
      rw [removeOthers]
      exact ih (n + 1) k nt (by omega)
    | PChild.other =>
      rw [removeOthers, allRuns]
      exact ih (n + 1) k nt (by omega)

theorem allRuns_removeOthers (p : Para) : ∀ (n k : Nat) (r : Run) (nt : List Char),
    n ≤ k → p[k - n]? = some (PChild.run r) →
    allRuns (removeOthers p n k nt) = [updateFirstRun r nt] := by
  induction p with
  | nil => intro n k r nt _ hp; simp at hp
  | cons c rest ih =>
    intro n k r nt hk hp
    match c with
    | PChild.run r0 =>
      by_cases he : n = k
      · subst he
        rw [show n - n = 0 by omega, List.getElem?_cons_zero] at hp
        have : r0 = r := by
          have := Option.some_inj.mp hp
          exact PChild.run.inj this
        subst this
        rw [removeOthers, if_pos rfl, allRuns, removeOthers_past rest (n + 1) n nt (by omega)]
      · rw [removeOthers, if_neg he]
        have hkn : 1 ≤ k - n := by omega
        rw [show k - n = (k - (n + 1)) + 1 by omega, List.getElem?_cons_succ] at hp
        exact ih (n + 1) k r nt (by omega) hp
    | PChild.hyperlink rs =>
      rw [removeOthers]
      have hkn : k - n ≠ 0 := by
        intro h0
        rw [h0, List.getElem?_cons_zero] at hp
        exact PChild.noConfusion (Option.some_inj.mp hp)
      rw [show k - n = (k - (n + 1)) + 1 by omega, List.getElem?_cons_succ] at hp
      exact ih (n + 1) k r nt (by omega) hp
    | PChild.other =>
      rw [removeOthers, allRuns]
      have hkn : k - n ≠ 0 := by
        intro h0
        rw [h0, List.getElem?_cons_zero] at hp
        exact PChild.noConfusion (Option.some_inj.mp hp)
      rw [show k - n = (k - (n + 1)) + 1 by omega, List.getElem?_cons_succ] at hp
      exact ih (n + 1) k r nt (by omega) hp

theorem filterOther_removeOthers (p : Para) : ∀ (n k : Nat) (nt : List Char),
    (removeOthers p n k nt).filter (fun c => decide (c = PChild.other)) =
      p.filter (fun c => decide (c = PChild.other)) := by
  induction p with
  | nil => intro n k nt; rfl
  | cons c rest ih =>
    intro n k nt
    match c with
    | PChild.run r0 =>
      rw [removeOthers]
      by_cases he : n = k
      · rw [if_pos he, List.filter_cons, List.filter_cons, if_neg (by simp),
          if_neg (by simp)]
        exact ih (n + 1) k nt
      · rw [if_neg he, List.filter_cons, if_neg (by simp)]
        exact ih (n + 1) k nt
    | PChild.hyperlink rs =>
      rw [removeOthers, List.filter_cons, if_neg (by simp)]
      exact ih (n + 1) k nt
    | PChild.other =>
      rw [removeOthers, List.filter_cons, List.filter_cons, if_pos (by decide),
        if_pos (by decide), ih (n + 1) k nt]

theorem othersOf_removeOthers (p : Para) (n k : Nat) (nt : List Char) :
    othersOf (removeOthers p n k nt) = othersOf p := by
  rw [othersOf, othersOf]
  exact filterOther_removeOthers p n k nt

theorem firstRunAddrAux_direct (p : Para) : ∀ (n k : Nat),
    firstRunAddrAux p n = some (RunAddr.direct k) →
    n ≤ k ∧ ∃ r, p[k - n]? = some (PChild.run r) := by
  induction p with
  | nil => intro n k h; simp [firstRunAddrAux] at h
  | cons c rest ih =>
    intro n k h
    match c with
    | PChild.run r0 =>
      rw [firstRunAddrAux] at h
      have hk : n = k := RunAddr.direct.inj (Option.some_inj.mp h)
      subst hk
      exact ⟨le_refl n, r0, by simp⟩
    | PChild.hyperlink rs =>
      rw [firstRunAddrAux] at h
      by_cases hrs : rs.isEmpty
      · rw [if_pos hrs] at h
        obtain ⟨hle, r, hr⟩ := ih (n + 1) k h
        refine ⟨by omega, r, ?_⟩
        rw [show k - n = (k - (n + 1)) + 1 by omega, List.getElem?_cons_succ]
        exact hr
      · rw [if_neg hrs] at h
        exact absurd (Option.some_inj.mp h) (by intro hcon; exact RunAddr.noConfusion hcon)
    | PChild.other =>
      rw [firstRunAddrAux] at h
      obtain ⟨hle, r, hr⟩ := ih (n + 1) k h
      refine ⟨by omega, r, ?_⟩
      rw [show k - n = (k - (n + 1)) + 1 by omega, List.getElem?_cons_succ]
      exact hr

theorem replaceCellText_first (pre : List Para) (p : Para) (post : List Para)
    (old new : List Char)
    (hpre : ∀ q ∈ pre, allRuns q = [] ∨ findSub (paragraphText q) old = none)
    (hp1 : allRuns p ≠ [])
    (hp2 : findSub (paragraphText p) old ≠ none) :
    replaceCellText (pre ++ p :: post) old new = pre ++ rewritePara p new :: post := by
  induction pre with
  | nil =>
    rw [List.nil_append, replaceCellText, if_neg hp1, if_neg hp2, List.nil_append]
  | cons q pre' ih =>
    rw [List.cons_append, replaceCellText]
    rcases hpre q (List.mem_cons_self q pre') with hq | hq
    · rw [if_pos hq, ih (fun x hx => hpre x (List.mem_cons_of_mem q hx)),
        List.cons_append]
    · by_cases hq0 : allRuns q = []
      · rw [if_pos hq0, ih (fun x hx => hpre x (List.mem_cons_of_mem q hx)),
          List.cons_append]
      · rw [if_neg hq0, if_pos hq, ih (fun x hx => hpre x (List.mem_cons_of_mem q hx)),
          List.cons_append]

/-- C9 amended: `replace_cell_text` rewrites only the first paragraph that
has a run and contains `old_text`; provided the paragraph's first run (in
document order) is a direct child, that run's text is set to exactly
`new_text` with its italic/color markers stripped, every other run and
every hyperlink child is removed (so the surviving run list is exactly the
updated first run and the run count never increases, dropping text outside
the match), and the opaque children are kept in order.  When the first run
sits inside a hyperlink, the hyperlink removal discards it too. -/
theorem claim9_first_paragraph_rewrite (pre : List Para) (p : Para)
    (post : List Para) (old new : List Char) (k : Nat) (r : Run)
    (hpre : ∀ q ∈ pre, allRuns q = [] ∨ findSub (paragraphText q) old = none)
    (hruns : allRuns p ≠ [])
    (hfound : findSub (paragraphText p) old ≠ none)
    (hdir : firstRunAddrAux p 0 = some (RunAddr.direct k))
    (hk : p[k]? = some (PChild.run r)) :
    replaceCellText (pre ++ p :: post) old new =
      pre ++ rewritePara p new :: post ∧
    allRuns (rewritePara p new) = [updateFirstRun r new] ∧
    runText (updateFirstRun r new) = new ∧
    (∀ pr, (updateFirstRun r new).rPr = some pr →
      pr.i = false ∧ pr.iCs = false ∧ pr.color = false) ∧
    othersOf (rewritePara p new) = othersOf p ∧
    (allRuns (rewritePara p new)).length ≤ (allRuns p).length := by
  have hrw : rewritePara p new = removeOthers p 0 k new := by
    rw [rewritePara, hdir]
  have hall : allRuns (rewritePara p new) = [updateFirstRun r new] := by
    rw [hrw]
    exact allRuns_removeOthers p 0 k r new (by omega) (by simpa using hk)
  refine ⟨replaceCellText_first pre p post old new hpre hruns hfound,
    hall, rfl, ?_, ?_, ?_⟩
  · intro pr hpr
    rw [updateFirstRun] at hpr
    cases hr0 : r.rPr with
    | none => rw [hr0] at hpr; simp at hpr
    | some pr0 =>
      rw [hr0] at hpr
      simp only [Option.map_some', Option.some_inj] at hpr
      rw [← hpr]
      exact ⟨rfl, rfl, rfl⟩
  · rw [hrw]
    exact othersOf_removeOthers p 0 k new
  · rw [hall]
    have : 0 < (allRuns p).length := List.length_pos.mpr hruns
    simp
    omega

/-- Counterexample for C9 as stated: a qualifying single-run cell where the
replacement leaves the run count unchanged (it does not decrease), and a
qualifying cell whose first run sits inside a hyperlink, where the updated
run is itself discarded so no run carries the new text. -/
theorem claim9_counterexample :
    (allRuns singleRunPara ≠ [] ∧
      findSub (paragraphText singleRunPara) "[Fill in]".toList ≠ none ∧
      replaceCellText [singleRunPara] "[Fill in]".toList "{x}".toList =
        [[PChild.run (updateFirstRun fillRun "{x}".toList)]] ∧
      ¬ (allRuns (rewritePara singleRunPara "{x}".toList)).length <
          (allRuns singleRunPara).length) ∧
    (allRuns [PChild.hyperlink [fillRun], PChild.other] ≠ [] ∧
      findSub (paragraphText [PChild.hyperlink [fillRun], PChild.other])
        "[Fill in]".toList ≠ none ∧
      replaceCellText [[PChild.hyperlink [fillRun], PChild.other]]
        "[Fill in]".toList "{x}".toList = [[PChild.other]]) := by
  exact ⟨⟨by decide, by decide, by decide, by decide⟩, ⟨by decide, by decide, by decide⟩⟩

/-- Witness for C9: a cell of two paragraphs, the first without the
placeholder; only the second is rewritten — its first run (the direct
child `"pre"`) gets the new text, the other run and the hyperlink vanish,
the opaque child stays. -/
theorem claim9_witness :
    replaceCellText ([nopePara] ++ demoPara :: []) "[Fill in]".toList
        "{effective_date}".toList =
      [nopePara] ++ rewritePara demoPara "{effective_date}".toList :: [] ∧
    allRuns (rewritePara demoPara "{effective_date}".toList) =
      [updateFirstRun preRun "{effective_date}".toList] ∧
    runText (updateFirstRun preRun "{effective_date}".toList) =
      "{effective_date}".toList ∧
    (∀ pr, (updateFirstRun preRun "{effective_date}".toList).rPr = some pr →
      pr.i = false ∧ pr.iCs = false ∧ pr.color = false) ∧
    othersOf (rewritePara demoPara "{effective_date}".toList) = othersOf demoPara ∧
    (allRuns (rewritePara demoPara "{effective_date}".toList)).length ≤
      (allRuns demoPara).length :=
  claim9_first_paragraph_rewrite [nopePara] demoPara [] "[Fill in]".toList
    "{effective_date}".toList 1 preRun (by decide) (by decide) (by decide)
    (by decide) (by decide)
